import Mathlib

/-
Verification of the versioned-file replay engine of the
confluence-page-exporter repository (git_versioner.py and models.py).

The Python sources are embedded shallowly:
  * the filename regex  VERSION_PATTERN = r'^(.+?)\s+(\d+(?:\.\d+)+)\.(\w+)$'
    becomes an explicit backtracking matcher over lists of characters that
    mirrors the lazy/greedy semantics of the Python re engine;
  * parse_version, _extract_page_id, _extract_confluence_version become
    functions on strings / character lists;
  * find_all_files becomes a pure function from the scanned file list to
    (versioned groups sorted by key, plain files);
  * ExportTracker (models.py) becomes a record of three lists mirroring the
    three tables, with the mark_* operations as list transformations;
  * the git repository becomes an association list (the HEAD tree) plus a
    commit counter; staging-then-status is modelled by comparing the tree
    after the copy with the tree before (each loop iteration of commit_all
    either commits everything staged or staged nothing new, so the working
    tree always equals HEAD at the start of an iteration);
  * the external Word-to-markdown converter is a parameter conv, as it is an
    external collaborator of the core;
  * commit_all becomes a fold over the discovered units threading a state
    (commits created, units skipped via the ledger, repository, tracker).
Machine integers do not occur (Python ints are unbounded); file contents are
abstracted to Nat since only byte-for-byte equality of contents is ever
observed by the code (via git status).
-/

/-! ### Character classes (Python \s, \d, \w restricted to their ASCII core) -/

/-- Python \s on ASCII: space, tab, newline, carriage return, vertical tab,
form feed. -/
def isSpaceChar (c : Char) : Bool :=
  c == ' ' || c == '\t' || c == '\n' || c == '\r' || c == '\x0b' || c == '\x0c'

/-- Python \w on ASCII: alphanumeric or underscore. -/
def isWordChar (c : Char) : Bool :=
  c.isAlphanum || c == '_'

/-! ### parse_version and splitting helpers (git_versioner.py lines 65-67) -/

/-- Split a character list on a separator character; mirrors the Python
str.split with a single-character separator (so an empty input yields one
empty segment, and separators at the ends yield empty segments). -/
def splitOnChar (sep : Char) (l : List Char) : List (List Char) :=
  l.foldr
    (fun c acc =>
      if c = sep then [] :: acc
      else
        match acc with
        | [] => [[c]]
        | g :: gs => (c :: g) :: gs)
    [[]]

/-- Value of a digit string, as Python int() computes it on a digit string. -/
def natOfDigits (l : List Char) : Nat :=
  l.foldl (fun a c => a * 10 + (c.toNat - 48)) 0

/-- parse_version: parse a dot-separated numeric string into its tuple of
integers, e.g. 0.1.5.1 into (0, 1, 5, 1). -/
def parse_version (s : String) : List Nat :=
  (splitOnChar '.' s.toList).map natOfDigits

/-! ### The filename pattern (git_versioner.py line 56)

VERSION_PATTERN = ^(.+?)\s+(\d+(?:\.\d+)+)\.(\w+)$ , executed with re.match.
The matcher below reproduces the backtracking search of the re engine:
the lazy (.+?) tries the shortest base first; the runs matched by \s+ and
each \d+ are forced to be maximal because the token that follows each run
can never match a character of the same class; the greedy (?:\.\d+)+ tries
to consume one more .digits chunk before falling back to matching the final
\.(\w+)$ at the current position. -/

/-- Match the final \.(\w+)$ of the pattern: a dot followed by one or more
word characters reaching the end of the input. -/
def matchExt : List Char → Option (List Char)
  | [] => none
  | c :: rest => if c = '.' ∧ rest ≠ [] ∧ rest.all isWordChar then some rest else none

/-- Match (?:\.\d+)*\.(\w+)$ greedily, returning (characters consumed by the
iterations, extension capture).  The fuel argument bounds the recursion; any
fuel at least the length of the input is enough, since every iteration
consumes at least two characters. -/
def matchTailF : Nat → List Char → Option (List Char × List Char)
  | _, [] => none
  | 0, _ :: _ => none
  | fuel + 1, c :: rest =>
    if c = '.' then
      let d := rest.takeWhile Char.isDigit
      if d.isEmpty then (matchExt (c :: rest)).map (fun e => ([], e))
      else
        match matchTailF fuel (rest.dropWhile Char.isDigit) with
        | some (v, e) => some ('.' :: d ++ v, e)
        | none => (matchExt (c :: rest)).map (fun e => ([], e))
    else none

/-- Match (?:\.\d+)*\.(\w+)$ (fuel instantiated adequately). -/
def matchTail (s : List Char) : Option (List Char × List Char) :=
  matchTailF s.length s

/-- Match (?:\.\d+)+\.(\w+)$ : the mandatory first .digits iteration followed
by the rest of the version chunks and the extension. -/
def matchIters (s : List Char) : Option (List Char × List Char) :=
  match s with
  | [] => none
  | c :: rest =>
    if c = '.' then
      let d := rest.takeWhile Char.isDigit
      if d.isEmpty then none
      else (matchTail (rest.dropWhile Char.isDigit)).map (fun p => ('.' :: d ++ p.1, p.2))
    else none

/-- Match \s+(\d+(?:\.\d+)+)\.(\w+)$ , returning (version capture, extension
capture). -/
def matchRest (s : List Char) : Option (List Char × List Char) :=
  let ws := s.takeWhile isSpaceChar
  if ws.isEmpty then none
  else
    let s1 := s.dropWhile isSpaceChar
    let d := s1.takeWhile Char.isDigit
    if d.isEmpty then none
    else (matchIters (s1.dropWhile Char.isDigit)).map (fun p => (d ++ p.1, p.2))

/-- The lazy (.+?) loop: extend the base one character at a time (a base
character may not be a newline, since . does not match newlines), trying
after each extension to match the remainder of the pattern on the rest of
the input; the first extension that succeeds wins. -/
def goMatch (acc : List Char) : List Char → Option (List Char × List Char × List Char)
  | [] => none
  | c :: rest =>
    if c = '\n' then none
    else
      match matchRest rest with
      | some (v, e) => some (acc ++ [c], v, e)
      | none => goMatch (acc ++ [c]) rest

/-- VERSION_PATTERN.match on a filename: on success returns the three
captures (base name, version string, extension). -/
def VERSION_PATTERN_match (name : String) : Option (String × String × String) :=
  (goMatch [] name.toList).map (fun t => (String.mk t.1, String.mk t.2.1, String.mk t.2.2))

/-! ### Sanity examples for the matcher -/

example : VERSION_PATTERN_match ("request_config 0.1.5.1.json")
    = some ("request_config", "0.1.5.1", "json") := by decide

/-! ### Version ordering

versionLe (below) models the Python tuple comparison used as the sort key in
find_all_files (key=lambda x: parse_version(x[0])); pairwiseSegLt is the
comparison described by the specification: compare the numeric segments
pairwise left to right, a proper prefix sorting first. -/

/-- Tuple less-or-equal on integer lists, as Python compares tuples. -/
def versionLe : List Nat → List Nat → Bool
  | [], _ => true
  | _ :: _, [] => false
  | a :: as, b :: bs => if a < b then true else if b < a then false else versionLe as bs

/-- Modelled from the spec: compare two segment lists pairwise left to right;
at the first differing position the smaller number sorts first, and when one
list is exhausted first it is a proper prefix and sorts first (no
zero-padding). -/
def pairwiseSegLt : List Nat → List Nat → Bool
  | [], [] => false
  | [], _ :: _ => true
  | _ :: _, [] => false
  | a :: as, b :: bs => if a < b then true else if a = b then pairwiseSegLt as bs else false

/-! ### File discovery and grouping (git_versioner.py lines 138-162) -/

/-- A file of the scanned source tree: directory relative to the source root
(the string "." for the root itself, as Path.relative_to yields), file name,
and content (abstracted to a number, since the code only ever observes
byte-for-byte equality of contents). -/
structure SrcFile where
  relDir : String
  fname : String
  content : Nat
deriving DecidableEq

/-- Group key of a versioned file: (relative dir, base name, extension). -/
def groupKeyOf (f : SrcFile) : Option (String × String × String) :=
  (VERSION_PATTERN_match f.fname).map (fun t => (f.relDir, t.1, t.2.2))

/-- The members of one group, in discovery order, as (version string, file). -/
def rawGroup (tree : List SrcFile) (k : String × String × String) : List (String × SrcFile) :=
  tree.filterMap (fun f =>
    match VERSION_PATTERN_match f.fname with
    | some t => if (f.relDir, t.1, t.2.2) = k then some (t.2.1, f) else none
    | none => none)

/-- Ordering of version entries by their parsed version tuples, the sort key
of list.sort in find_all_files. -/
def vle (a b : String × SrcFile) : Prop :=
  versionLe (parse_version a.1) (parse_version b.1) = true

instance : DecidableRel vle := fun _ _ => instDecidableEqBool _ _

/-- Code-point comparison of character lists (Python string comparison). -/
def charListLtB : List Char → List Char → Bool
  | [], [] => false
  | [], _ :: _ => true
  | _ :: _, [] => false
  | a :: as, b :: bs =>
    if a.toNat < b.toNat then true else if b.toNat < a.toNat then false else charListLtB as bs

/-- Python string less-than, by code points. -/
def strLtB (a b : String) : Bool := charListLtB a.toList b.toList

/-- Python tuple comparison on the (dir, name, ext) group keys, as used by
sorted(versioned.items()). -/
def keyLe (a b : String × String × String) : Prop :=
  (if strLtB a.1 b.1 then true else if strLtB b.1 a.1 then false
   else if strLtB a.2.1 b.2.1 then true else if strLtB b.2.1 a.2.1 then false
   else if strLtB a.2.2 b.2.2 then true else if strLtB b.2.2 a.2.2 then false
   else true) = true

instance : DecidableRel keyLe := fun _ _ => instDecidableEqBool _ _

/-- find_all_files: classify every file of the tree (given in the sorted
recursive-scan order) via VERSION_PATTERN, group the versioned ones by
(relative dir, base name, extension) with each group sorted ascending by
parsed version, keys in sorted order, and return the plain files besides. -/
def find_all_files (tree : List SrcFile) :
    List ((String × String × String) × List (String × SrcFile)) × List SrcFile :=
  (((tree.filterMap groupKeyOf).dedup.insertionSort keyLe).map
      (fun k => (k, (rawGroup tree k).insertionSort vle)),
   tree.filter (fun f => (VERSION_PATTERN_match f.fname).isNone))

/-! ### The ledger: ExportTracker over the three tables (models.py) -/

/-- Row of exported_page_versions. -/
structure PVRec where
  page_id : String
  version_number : Nat
  export_format : String
  committed_to_git : Bool
  committed_at : Option Nat
deriving DecidableEq

/-- Row of exported_attachments (the fields the replay side touches). -/
structure AttRec where
  page_id : String
  attachment_title : Option String
  committed_to_git : Bool
  committed_at : Option Nat
deriving DecidableEq

/-- The tracker state: committed_files source paths, exported_page_versions
rows, exported_attachments rows, each in table order. -/
structure Tracker where
  files : List String
  pageVersions : List PVRec
  attachments : List AttRec
deriving DecidableEq

/-- is_file_committed: membership of the source-relative path. -/
def Tracker.is_file_committed (tr : Tracker) (p : String) : Bool :=
  decide (p ∈ tr.files)

/-- mark_file_committed: insert the path if absent, otherwise no-op. -/
def Tracker.mark_file_committed (tr : Tracker) (p : String) : Tracker :=
  if p ∈ tr.files then tr else { tr with files := tr.files ++ [p] }

/-- The _sanitize staticmethod: keep alphanumeric characters and dot,
underscore, hyphen, space, in their original order; drop everything else. -/
def sanitize (s : String) : String :=
  String.mk (s.toList.filter (fun c => c.isAlphanum || c == '.' || c == '_' || c == '-' || c == ' '))

/-- One scan of exported_page_versions for mark_version_committed: at the
first row matching the (page id, version number, format) triple, set the
committed flag and timestamp unless the flag is already set, and stop. -/
def markVerList (pid : String) (n : Nat) (fmt : String) (now : Nat) : List PVRec → List PVRec
  | [] => []
  | r :: rs =>
    if r.page_id = pid ∧ r.version_number = n ∧ r.export_format = fmt then
      (if r.committed_to_git then r :: rs
       else { r with committed_to_git := true, committed_at := some now } :: rs)
    else r :: markVerList pid n fmt now rs

/-- mark_version_committed (models.py lines 156-167). -/
def Tracker.mark_version_committed (tr : Tracker) (pid : String) (n : Nat)
    (fmt : String) (now : Nat) : Tracker :=
  { tr with pageVersions := markVerList pid n fmt now tr.pageVersions }

/-- The match condition of mark_attachment_committed_by_filename: a row of
this page whose committed flag is false and whose sanitized title equals the
on-disk filename. -/
def attMatch (pid fname : String) (r : AttRec) : Bool :=
  r.page_id == pid && r.committed_to_git == false && sanitize (r.attachment_title.getD "") == fname

/-- One scan of exported_attachments: set the flag and timestamp on the first
matching row and stop. -/
def markAttList (pid fname : String) (now : Nat) : List AttRec → List AttRec
  | [] => []
  | r :: rs =>
    if attMatch pid fname r then
      { r with committed_to_git := true, committed_at := some now } :: rs
    else r :: markAttList pid fname now rs

/-- mark_attachment_committed_by_filename (models.py lines 185-202). -/
def Tracker.mark_attachment_committed_by_filename (tr : Tracker) (pid fname : String)
    (now : Nat) : Tracker :=
  { tr with attachments := markAttList pid fname now tr.attachments }

/-! ### Paths, page ids and version decoding (git_versioner.py lines 70-90) -/

/-- Path of a file relative to the source root (str(path.relative_to(src))):
the file name alone at the root, else dir/name. -/
def gitPathIn (relDir fname : String) : String :=
  if relDir = "." then fname else relDir ++ "/" ++ fname

/-- Source-relative path of a scanned file. -/
def sourceRel (f : SrcFile) : String := gitPathIn f.relDir f.fname

/-- Last path component (Path(...).name). -/
def lastComponent (s : String) : String :=
  String.mk ((splitOnChar '/' s.toList).getLastD [])

/-- The directory name a page id is extracted from: the source directory
itself for files at the root, else the innermost directory of the relative
path (git_versioner.py lines 220 and 279). -/
def dirNameOf (srcDirName relDir : String) : String :=
  if relDir = "." then srcDirName else lastComponent relDir

/-- _extract_page_id: the digits after the last underscore of a directory
name such as PageTitle_12345, if the underscore exists and the suffix is a
nonempty digit string. -/
def _extract_page_id (dirName : String) : Option String :=
  let l := dirName.toList
  let tail := (l.reverse.takeWhile (fun c => c ≠ '_')).reverse
  if tail.length = l.length then none
  else if tail ≠ [] ∧ tail.all Char.isDigit then some (String.mk tail) else none

/-- _extract_confluence_version: a version string of exactly two segments
whose second is the literal string 0 decodes to the number of its first
segment; anything else decodes to none. -/
def _extract_confluence_version (v : String) : Option Nat :=
  match splitOnChar '.' v.toList with
  | [p0, p1] =>
    if p1 = ['0'] ∧ p0 ≠ [] ∧ p0.all Char.isDigit then some (natOfDigits p0) else none
  | _ => none

/-! ### The target repository and the Word-companion collaborator -/

/-- The target repository: HEAD tree as an association list from repository
paths to contents, plus the length of the commit log. -/
structure Repo where
  tree : List (String × Nat)
  count : Nat
deriving DecidableEq

/-- Copy a file into the working tree (shutil.copy2 into the mirrored path,
followed by git add): replace the entry in place or append a new one. -/
def upsert : List (String × Nat) → String → Nat → List (String × Nat)
  | [], k, v => [(k, v)]
  | (k', v') :: rest, k, v =>
    if k' = k then (k, v) :: rest else (k', v') :: upsert rest k v

/-- Suffix of a file name in the sense of Path.suffix (includes the dot;
empty when there is no dot, the only dot is leading, or the dot is last). -/
def fileSuffix (fname : String) : String :=
  let l := fname.toList
  let tail := l.reverse.takeWhile (fun c => c ≠ '.')
  if tail.length + 1 ≥ l.length then ""
  else if tail.isEmpty then ""
  else String.mk ('.' :: tail.reverse)

/-- Stem of a file name in the sense of Path.stem. -/
def fileStem (fname : String) : String :=
  let l := fname.toList
  String.mk (l.take (l.length - (fileSuffix fname).toList.length))

/-- ASCII lowercasing, as str.lower on the extensions that matter here. -/
def strToLower (s : String) : String := String.mk (s.toList.map Char.toLower)

/-- generate_md_companion: for a Word-family file (suffix .doc or .docx,
case-insensitively) for which the external converter conv yields markdown,
the companion file stem_suffix.md with the converted content; none
otherwise (conversion failure only omits the companion). -/
def companionFor (conv : Nat → Option Nat) (fname : String) (content : Nat) :
    Option (String × Nat) :=
  let sfx := strToLower (fileSuffix fname)
  if sfx = ".docx" ∨ sfx = ".doc" then
    match conv content with
    | some md =>
      some (fileStem fname ++ "_" ++ strToLower (String.mk ((fileSuffix fname).toList.drop 1)) ++ ".md", md)
    | none => none
  else none

/-- Stage one source file into the working tree at its target path, together
with its markdown companion when one is generated. -/
def stageFile (conv : Nat → Option Nat) (relDir targetName : String) (content : Nat)
    (t : List (String × Nat)) : List (String × Nat) :=
  let t1 := upsert t (gitPathIn relDir targetName) content
  match companionFor conv targetName content with
  | some p => upsert t1 (gitPathIn relDir p.1) p.2
  | none => t1

/-! ### The replay engine: commit_all (git_versioner.py lines 179-337) -/

/-- State threaded through commit_all: commits created, units skipped via the
ledger, the target repository, and the optional tracker. -/
structure RState where
  commits : Nat
  skipped : Nat
  repo : Repo
  tracker : Option Tracker
deriving DecidableEq

/-- The ledger updates of the plain-file loop: mark the source path
committed and, when a page id was extracted, mark the attachment with the
matching sanitized title committed. -/
def plainMarks (source_rel fname : String) (page_id : Option String) (now : Nat)
    (tr : Tracker) : Tracker :=
  let tr1 := tr.mark_file_committed source_rel
  match page_id with
  | some pid => tr1.mark_attachment_committed_by_filename pid fname now
  | none => tr1

/-- The page id available to the ledger updates: extracted from the
containing directory name, and only computed when a tracker is present. -/
def pageIdFor (st : RState) (srcDirName relDir : String) : Option String :=
  match st.tracker with
  | some _ => _extract_page_id (dirNameOf srcDirName relDir)
  | none => none

/-- One iteration of the plain-file loop of commit_all (lines 198-259):
ledger skip check, dry-run short-circuit, copy and stage (with companion),
status check, commit when changes exist, ledger updates. -/
def processPlain (conv : Nat → Option Nat) (srcDirName : String) (now : Nat) (dry : Bool)
    (st : RState) (f : SrcFile) : RState :=
  if (match st.tracker with
      | some tr => tr.is_file_committed (sourceRel f)
      | none => false) then
    { st with skipped := st.skipped + 1 }
  else if dry then { st with commits := st.commits + 1 }
  else if stageFile conv f.relDir f.fname f.content st.repo.tree = st.repo.tree then
    { st with
      tracker := st.tracker.map
        (plainMarks (sourceRel f) f.fname (pageIdFor st srcDirName f.relDir) now) }
  else
    { st with
      commits := st.commits + 1,
      repo := { tree := stageFile conv f.relDir f.fname f.content st.repo.tree,
                count := st.repo.count + 1 },
      tracker := st.tracker.map
        (plainMarks (sourceRel f) f.fname (pageIdFor st srcDirName f.relDir) now) }

/-- The ledger updates of the commit branch of the versioned loop: mark the
source path committed and, when a page id was extracted and the version
string decodes to a bare page version, mark that page version committed with
the format derived from the extension (md becomes markdown). -/
def versionMarks (source_rel version_str ext : String) (page_id : Option String)
    (now : Nat) (tr : Tracker) : Tracker :=
  match page_id, _extract_confluence_version version_str with
  | some pid, some n =>
    (tr.mark_file_committed source_rel).mark_version_committed pid n
      (if ext = "md" then "markdown" else ext) now
  | _, _ => tr.mark_file_committed source_rel

/-- One iteration of the versioned loop of commit_all (lines 282-332):
ledger skip check, dry-run short-circuit, copy to the fixed target name
base.ext (overwriting the previous version), stage (with companion), status
check; with no pending changes record only the file ledger entry; otherwise
commit and record the file entry plus, when decodable, the page version. -/
def processVersion (conv : Nat → Option Nat) (now : Nat) (dry : Bool)
    (page_id : Option String) (relDir name ext : String)
    (st : RState) (v : String × SrcFile) : RState :=
  if (match st.tracker with
      | some tr => tr.is_file_committed (sourceRel v.2)
      | none => false) then
    { st with skipped := st.skipped + 1 }
  else if dry then { st with commits := st.commits + 1 }
  else if stageFile conv relDir (name ++ "." ++ ext) v.2.content st.repo.tree = st.repo.tree then
    { st with tracker := st.tracker.map (fun tr => tr.mark_file_committed (sourceRel v.2)) }
  else
    { st with
      commits := st.commits + 1,
      repo := { tree := stageFile conv relDir (name ++ "." ++ ext) v.2.content st.repo.tree,
                count := st.repo.count + 1 },
      tracker := st.tracker.map (versionMarks (sourceRel v.2) v.1 ext page_id now) }

/-- One versioned group: extract the page id from the containing directory
once, then process the versions in their sorted order. -/
def processGroup (conv : Nat → Option Nat) (srcDirName : String) (now : Nat) (dry : Bool)
    (st : RState) (g : (String × String × String) × List (String × SrcFile)) : RState :=
  g.2.foldl
    (processVersion conv now dry (pageIdFor st srcDirName g.1.1) g.1.1 g.1.2.1 g.1.2.2) st

/-- commit_all: discover, then process the plain files first and the
versioned groups second, returning the final state (the commits field is the
returned count). -/
def commit_all (conv : Nat → Option Nat) (srcDirName : String) (now : Nat)
    (tree : List SrcFile) (repo : Repo) (tracker : Option Tracker) (dry : Bool) : RState :=
  if (find_all_files tree).1.isEmpty ∧ (find_all_files tree).2.isEmpty then
    ⟨0, 0, repo, tracker⟩
  else
    (find_all_files tree).1.foldl (processGroup conv srcDirName now dry)
      ((find_all_files tree).2.foldl (processPlain conv srcDirName now dry)
        ⟨0, 0, repo, tracker⟩)

/-- Number of discovered units (plain files plus versions in groups). -/
def totalUnits (tree : List SrcFile) : Nat :=
  (find_all_files tree).2.length + ((find_all_files tree).1.map (fun g => g.2.length)).sum

/-! ### List and character helper lemmas for the matcher -/

theorem takeWhile_append_sat {α : Type} (p : α → Bool) (l : List α) (c : α) (t : List α)
    (hl : ∀ x ∈ l, p x = true) (hc : p c = false) :
    (l ++ c :: t).takeWhile p = l := by
  induction l with
  | nil => simp [List.takeWhile_cons, hc]
  | cons a l ih =>
    simp only [List.cons_append, List.takeWhile_cons, hl a (by simp)]
    simpa using ih (fun x hx => hl x (by simp [hx]))

theorem dropWhile_append_sat {α : Type} (p : α → Bool) (l : List α) (c : α) (t : List α)
    (hl : ∀ x ∈ l, p x = true) (hc : p c = false) :
    (l ++ c :: t).dropWhile p = c :: t := by
  induction l with
  | nil => simp [List.dropWhile_cons, hc]
  | cons a l ih =>
    simp only [List.cons_append, List.dropWhile_cons, hl a (by simp)]
    simpa using ih (fun x hx => hl x (by simp [hx]))

theorem dropWhile_append_of_not_all {α : Type} (p : α → Bool) (l y : List α)
    (hl : ∃ x ∈ l, p x = false) :
    (l ++ y).dropWhile p = l.dropWhile p ++ y := by
  induction l with
  | nil => simp at hl
  | cons a l ih =>
    by_cases ha : p a = true
    · simp only [List.cons_append, List.dropWhile_cons, ha, if_true]
      apply ih
      rcases hl with ⟨x, hx, hxp⟩
      rw [List.mem_cons] at hx
      rcases hx with h | h
      · subst h; rw [ha] at hxp; simp at hxp
      · exact ⟨x, h, hxp⟩
    · have ha' : p a = false := by revert ha; cases p a <;> simp
      simp [List.cons_append, List.dropWhile_cons, ha']

theorem mem_of_getLastQ {α : Type} : ∀ (l : List α) (a : α), l.getLast? = some a → a ∈ l := by
  intro l
  induction l with
  | nil => intro a h; simp at h
  | cons x t ih =>
    intro a h
    cases t with
    | nil => simp at h; simp [h]
    | cons y t' =>
      rw [List.getLast?_cons_cons] at h
      exact List.mem_cons_of_mem _ (ih a h)

theorem digit_not_space {c : Char} (h : c.isDigit = true) : isSpaceChar c = false := by
  cases hs : isSpaceChar c with
  | false => rfl
  | true =>
    exfalso
    simp only [isSpaceChar, Bool.or_eq_true, beq_iff_eq] at hs
    rcases hs with ((((rfl | rfl) | rfl) | rfl) | rfl) | rfl <;> exact absurd h (by decide)

theorem word_not_space {c : Char} (h : isWordChar c = true) : isSpaceChar c = false := by
  cases hs : isSpaceChar c with
  | false => rfl
  | true =>
    exfalso
    simp only [isSpaceChar, Bool.or_eq_true, beq_iff_eq] at hs
    rcases hs with ((((rfl | rfl) | rfl) | rfl) | rfl) | rfl <;> exact absurd h (by decide)

theorem word_ne_dot {c : Char} (h : isWordChar c = true) : c ≠ '.' := by
  intro hc; subst hc; exact absurd h (by decide)

/-! ### Success of the matcher on a well-formed versioned filename -/

/-- Flatten a list of version segments into the .seg.seg... character run
that follows the first segment of a version string. -/
def flatTail (segs : List (List Char)) : List Char :=
  segs.foldr (fun s acc => '.' :: s ++ acc) []

theorem flatTail_cons (d : List Char) (segs : List (List Char)) :
    flatTail (d :: segs) = '.' :: d ++ flatTail segs := rfl

theorem flatTail_append_shape (segs : List (List Char)) (es : List Char) :
    ∃ Y, flatTail segs ++ '.' :: es = '.' :: Y := by
  cases segs with
  | nil => exact ⟨es, rfl⟩
  | cons d s => exact ⟨d ++ flatTail s ++ '.' :: es, by simp [flatTail_cons]⟩

theorem matchExt_word (es : List Char) (h1 : es ≠ []) (h2 : ∀ c ∈ es, isWordChar c = true) :
    matchExt ('.' :: es) = some es := by
  simp [matchExt, h1, List.all_eq_true.mpr h2]

theorem matchTailF_nil (fuel : Nat) : matchTailF fuel [] = none := by
  cases fuel <;> rfl

theorem matchTailF_word (fuel : Nat) (es : List Char) (h1 : es ≠ [])
    (h2 : ∀ c ∈ es, isWordChar c = true) :
    matchTailF (fuel + 1) ('.' :: es) = some ([], es) := by
  have hext := matchExt_word es h1 h2
  by_cases hd : (es.takeWhile Char.isDigit).isEmpty
  · simp [matchTailF, hd, hext]
  · have hrec : matchTailF fuel (es.dropWhile Char.isDigit) = none := by
      cases hes' : es.dropWhile Char.isDigit with
      | nil => exact matchTailF_nil fuel
      | cons c' r' =>
        have hc'w : isWordChar c' = true := by
          apply h2
          apply (List.dropWhile_sublist Char.isDigit).subset
          rw [hes']; simp
        have hc' : c' ≠ '.' := word_ne_dot hc'w
        cases fuel with
        | zero => rfl
        | succ f => simp [matchTailF, hc']
    simp [matchTailF, hd, hrec, hext]

theorem matchTailF_flat : ∀ (segs : List (List Char)) (fuel : Nat) (es : List Char),
    (∀ d ∈ segs, d ≠ [] ∧ ∀ c ∈ d, c.isDigit = true) →
    es ≠ [] → (∀ c ∈ es, isWordChar c = true) →
    (flatTail segs ++ '.' :: es).length ≤ fuel →
    matchTailF fuel (flatTail segs ++ '.' :: es) = some (flatTail segs, es) := by
  intro segs
  induction segs with
  | nil =>
    intro fuel es _ h1 h2 hlen
    cases fuel with
    | zero => simp [flatTail] at hlen
    | succ f => exact matchTailF_word f es h1 h2
  | cons d segs ih =>
    intro fuel es hsegs h1 h2 hlen
    have hd : d ≠ [] ∧ ∀ c ∈ d, c.isDigit = true := hsegs d (by simp)
    obtain ⟨Y, hY⟩ := flatTail_append_shape segs es
    have hshape : flatTail (d :: segs) ++ '.' :: es = '.' :: (d ++ ('.' :: Y)) := by
      rw [flatTail_cons]; simp [hY.symm, List.append_assoc]
    cases fuel with
    | zero => rw [hshape] at hlen; simp at hlen
    | succ f =>
      rw [hshape]
      have htw : (d ++ '.' :: Y).takeWhile Char.isDigit = d :=
        takeWhile_append_sat _ d '.' Y hd.2 (by decide)
      have hdw : (d ++ '.' :: Y).dropWhile Char.isDigit = '.' :: Y :=
        dropWhile_append_sat _ d '.' Y hd.2 (by decide)
      have hdne : d.isEmpty = false := by
        cases d with
        | nil => exact absurd rfl hd.1
        | cons _ _ => rfl
      have hrec : matchTailF f ('.' :: Y) = some (flatTail segs, es) := by
        rw [← hY]
        apply ih f es (fun x hx => hsegs x (by simp [hx])) h1 h2
        rw [hshape] at hlen
        have hYlen : (flatTail segs ++ '.' :: es).length = Y.length + 1 := by
          rw [hY]; simp
        rw [hYlen]
        have hdl : 1 ≤ d.length := by
          cases d with
          | nil => exact absurd rfl hd.1
          | cons _ _ => simp
        simp only [List.length_cons, List.length_append] at hlen
        omega
      simp [matchTailF, htw, hdw, hdne, hrec, flatTail_cons]

theorem matchTail_flat (segs : List (List Char)) (es : List Char)
    (hsegs : ∀ d ∈ segs, d ≠ [] ∧ ∀ c ∈ d, c.isDigit = true)
    (h1 : es ≠ []) (h2 : ∀ c ∈ es, isWordChar c = true) :
    matchTail (flatTail segs ++ '.' :: es) = some (flatTail segs, es) :=
  matchTailF_flat segs _ es hsegs h1 h2 (le_refl _)

theorem matchIters_flat (d2 : List Char) (rest : List (List Char)) (es : List Char)
    (hd2 : d2 ≠ []) (hd2d : ∀ c ∈ d2, c.isDigit = true)
    (hrest : ∀ d ∈ rest, d ≠ [] ∧ ∀ c ∈ d, c.isDigit = true)
    (h1 : es ≠ []) (h2 : ∀ c ∈ es, isWordChar c = true) :
    matchIters (flatTail (d2 :: rest) ++ '.' :: es) = some (flatTail (d2 :: rest), es) := by
  obtain ⟨Y, hY⟩ := flatTail_append_shape rest es
  have hshape : flatTail (d2 :: rest) ++ '.' :: es = '.' :: (d2 ++ ('.' :: Y)) := by
    rw [flatTail_cons]; simp [hY.symm, List.append_assoc]
  rw [hshape]
  have htw : (d2 ++ '.' :: Y).takeWhile Char.isDigit = d2 :=
    takeWhile_append_sat _ d2 '.' Y hd2d (by decide)
  have hdw : (d2 ++ '.' :: Y).dropWhile Char.isDigit = '.' :: Y :=
    dropWhile_append_sat _ d2 '.' Y hd2d (by decide)
  have hdne : d2.isEmpty = false := by
    cases d2 with
    | nil => exact absurd rfl hd2
    | cons _ _ => rfl
  have hrec : matchTail ('.' :: Y) = some (flatTail rest, es) := by
    rw [← hY]; exact matchTail_flat rest es hrest h1 h2
  simp [matchIters, htw, hdw, hdne, hrec, flatTail_cons, List.append_assoc]

theorem matchRest_full (ws d1 : List Char) (d2 : List Char) (rest : List (List Char))
    (es : List Char)
    (hws : ws ≠ []) (hwsp : ∀ c ∈ ws, isSpaceChar c = true)
    (hd1 : d1 ≠ []) (hd1d : ∀ c ∈ d1, c.isDigit = true)
    (hd2 : d2 ≠ []) (hd2d : ∀ c ∈ d2, c.isDigit = true)
    (hrest : ∀ d ∈ rest, d ≠ [] ∧ ∀ c ∈ d, c.isDigit = true)
    (h1 : es ≠ []) (h2 : ∀ c ∈ es, isWordChar c = true) :
    matchRest (ws ++ (d1 ++ flatTail (d2 :: rest)) ++ '.' :: es)
      = some (d1 ++ flatTail (d2 :: rest), es) := by
  have hV : (d1 ++ flatTail (d2 :: rest)) ++ '.' :: es
      = d1 ++ (flatTail (d2 :: rest) ++ '.' :: es) := by simp [List.append_assoc]
  obtain ⟨c1, d1t, hd1split⟩ : ∃ c1 d1t, d1 = c1 :: d1t := by
    cases d1 with
    | nil => exact absurd rfl hd1
    | cons a b => exact ⟨a, b, rfl⟩
  have hc1d : c1.isDigit = true := hd1d c1 (by simp [hd1split])
  have hbody : d1 ++ (flatTail (d2 :: rest) ++ '.' :: es)
      = c1 :: (d1t ++ (flatTail (d2 :: rest) ++ '.' :: es)) := by simp [hd1split]
  have htws : (ws ++ ((d1 ++ flatTail (d2 :: rest)) ++ '.' :: es)).takeWhile isSpaceChar = ws := by
    rw [hV, hbody]
    exact takeWhile_append_sat _ ws c1 _ hwsp (digit_not_space hc1d)
  have hdws : (ws ++ ((d1 ++ flatTail (d2 :: rest)) ++ '.' :: es)).dropWhile isSpaceChar
      = d1 ++ (flatTail (d2 :: rest) ++ '.' :: es) := by
    rw [hV, hbody]
    exact dropWhile_append_sat _ ws c1 _ hwsp (digit_not_space hc1d)
  obtain ⟨Y, hY⟩ := flatTail_append_shape (d2 :: rest) es
  have htwd : (d1 ++ (flatTail (d2 :: rest) ++ '.' :: es)).takeWhile Char.isDigit = d1 := by
    rw [hY]; exact takeWhile_append_sat _ d1 '.' Y hd1d (by decide)
  have hdwd : (d1 ++ (flatTail (d2 :: rest) ++ '.' :: es)).dropWhile Char.isDigit
      = flatTail (d2 :: rest) ++ '.' :: es := by
    rw [hY]; exact dropWhile_append_sat _ d1 '.' Y hd1d (by decide)
  have hwsne : ws.isEmpty = false := by
    cases ws with
    | nil => exact absurd rfl hws
    | cons _ _ => rfl
  have hd1ne : d1.isEmpty = false := by
    cases d1 with
    | nil => exact absurd rfl hd1
    | cons _ _ => rfl
  have hit := matchIters_flat d2 rest es hd2 hd2d hrest h1 h2
  have hw2 : (ws ++ (d1 ++ flatTail (d2 :: rest)) ++ '.' :: es) =
      ws ++ ((d1 ++ flatTail (d2 :: rest)) ++ '.' :: es) := by simp [List.append_assoc]
  rw [hw2]
  simp only [matchRest, htws, hdws, htwd, hdwd, hwsne, hd1ne, hit, Bool.false_eq_true, if_false]
  rfl

/-! ### Soundness of the matcher: a successful suffix match decomposes the
input as leading whitespace, then version characters, a dot and the
extension, all free of whitespace. -/

theorem matchExt_sound : ∀ (t e : List Char), matchExt t = some e →
    t = '.' :: e ∧ ∀ c ∈ e, isWordChar c = true := by
  intro t e h
  cases t with
  | nil => simp [matchExt] at h
  | cons c r =>
    simp only [matchExt] at h
    by_cases hcond : c = '.' ∧ r ≠ [] ∧ r.all isWordChar = true
    · rw [if_pos hcond] at h
      have hre : r = e := by injection h
      subst hre
      exact ⟨by rw [hcond.1], List.all_eq_true.mp hcond.2.2⟩
    · rw [if_neg hcond] at h
      exact absurd h (by simp)

theorem matchTailF_succ_dot (f : Nat) (r : List Char) :
    matchTailF (f + 1) ('.' :: r) =
      (if (r.takeWhile Char.isDigit).isEmpty then
        (matchExt ('.' :: r)).map (fun e => ([], e))
      else
        match matchTailF f (r.dropWhile Char.isDigit) with
        | some (v, e) => some ('.' :: r.takeWhile Char.isDigit ++ v, e)
        | none => (matchExt ('.' :: r)).map (fun e => ([], e))) := by
  simp [matchTailF]

theorem matchTailF_succ_not_dot (f : Nat) (c : Char) (r : List Char) (hc : c ≠ '.') :
    matchTailF (f + 1) (c :: r) = none := by
  simp [matchTailF, hc]

theorem matchTailF_sound : ∀ (fuel : Nat) (t v e : List Char),
    matchTailF fuel t = some (v, e) →
    t = v ++ '.' :: e ∧ (∀ c ∈ v, isSpaceChar c = false) ∧ ∀ c ∈ e, isSpaceChar c = false := by
  intro fuel
  induction fuel with
  | zero =>
    intro t v e h
    cases t with
    | nil => simp [matchTailF] at h
    | cons c r => simp [matchTailF] at h
  | succ f ih =>
    intro t v e h
    cases t with
    | nil => rw [matchTailF_nil] at h; exact absurd h (by simp)
    | cons c r =>
      by_cases hc : c = '.'
      · subst hc
        rw [matchTailF_succ_dot] at h
        have hextcase : ∀ v e : List Char,
            (matchExt ('.' :: r)).map (fun x => (([] : List Char), x)) = some (v, e) →
            ('.' : Char) :: r = v ++ '.' :: e ∧ (∀ c ∈ v, isSpaceChar c = false) ∧
              ∀ c ∈ e, isSpaceChar c = false := by
          intro v e h'
          cases hext : matchExt ('.' :: r) with
          | none => rw [hext] at h'; exact absurd h' (by simp)
          | some e' =>
            rw [hext] at h'
            simp only [Option.map] at h'
            have hpair : (([] : List Char), e') = (v, e) := by injection h'
            cases hpair
            obtain ⟨ht, hw⟩ := matchExt_sound _ _ hext
            exact ⟨by simpa using ht, by simp, fun c hcm => word_not_space (hw c hcm)⟩
        by_cases hd : (r.takeWhile Char.isDigit).isEmpty
        · rw [if_pos hd] at h
          exact hextcase v e h
        · rw [if_neg hd] at h
          cases hrec : matchTailF f (r.dropWhile Char.isDigit) with
          | none =>
            rw [hrec] at h
            exact hextcase v e h
          | some p =>
            obtain ⟨v', e'⟩ := p
            rw [hrec] at h
            simp only [] at h
            have hpair : ('.' :: r.takeWhile Char.isDigit ++ v', e') = (v, e) := by injection h
            cases hpair
            obtain ⟨ht', hv', he'⟩ := ih _ _ _ hrec
            refine ⟨?_, ?_, he'⟩
            · have hsplit : r = r.takeWhile Char.isDigit ++ r.dropWhile Char.isDigit :=
                (List.takeWhile_append_dropWhile _ _).symm
              conv_lhs => rw [hsplit, ht']
              simp [List.append_assoc]
            · intro x hx
              rcases List.mem_cons.mp hx with rfl | hx'
              · decide
              · rcases List.mem_append.mp hx' with hx'' | hx''
                · exact digit_not_space (List.mem_takeWhile_imp hx'')
                · exact hv' x hx''
      · rw [matchTailF_succ_not_dot f c r hc] at h
        exact absurd h (by simp)

theorem matchIters_sound (t v e : List Char) (h : matchIters t = some (v, e)) :
    t = v ++ '.' :: e ∧ (∀ c ∈ v, isSpaceChar c = false) ∧ ∀ c ∈ e, isSpaceChar c = false := by
  cases t with
  | nil => simp [matchIters] at h
  | cons c r =>
    by_cases hc : c = '.'
    · subst hc
      simp only [matchIters] at h
      by_cases hd : (r.takeWhile Char.isDigit).isEmpty
      · rw [if_pos hd] at h; exact absurd h (by simp)
      · rw [if_neg hd] at h
        cases hrec : matchTail (r.dropWhile Char.isDigit) with
        | none => rw [hrec] at h; exact absurd h (by simp)
        | some p =>
          obtain ⟨v', e'⟩ := p
          rw [hrec] at h
          simp only [Option.map] at h
          have hpair : ('.' :: r.takeWhile Char.isDigit ++ v', e') = (v, e) := by injection h
          cases hpair
          obtain ⟨ht', hv', he'⟩ := matchTailF_sound _ _ _ _ hrec
          refine ⟨?_, ?_, he'⟩
          · have hsplit : r = r.takeWhile Char.isDigit ++ r.dropWhile Char.isDigit :=
              (List.takeWhile_append_dropWhile _ _).symm
            conv_lhs => rw [hsplit, ht']
            simp [List.append_assoc]
          · intro x hx
            rcases List.mem_cons.mp hx with rfl | hx'
            · decide
            · rcases List.mem_append.mp hx' with hx'' | hx''
              · exact digit_not_space (List.mem_takeWhile_imp hx'')
              · exact hv' x hx''
    · simp [matchIters, hc] at h

theorem matchRest_sound (t v e : List Char) (h : matchRest t = some (v, e)) :
    t = t.takeWhile isSpaceChar ++ (v ++ '.' :: e) ∧
      (∀ c ∈ v, isSpaceChar c = false) ∧ ∀ c ∈ e, isSpaceChar c = false := by
  simp only [matchRest] at h
  by_cases hws : (t.takeWhile isSpaceChar).isEmpty
  · rw [if_pos hws] at h; exact absurd h (by simp)
  · rw [if_neg hws] at h
    by_cases hd : ((t.dropWhile isSpaceChar).takeWhile Char.isDigit).isEmpty
    · rw [if_pos hd] at h; exact absurd h (by simp)
    · rw [if_neg hd] at h
      cases hit : matchIters ((t.dropWhile isSpaceChar).dropWhile Char.isDigit) with
      | none => rw [hit] at h; exact absurd h (by simp)
      | some p =>
        obtain ⟨v', e'⟩ := p
        rw [hit] at h
        simp only [Option.map] at h
        have hpair : ((t.dropWhile isSpaceChar).takeWhile Char.isDigit ++ v', e') = (v, e) := by
          injection h
        cases hpair
        obtain ⟨ht', hv', he'⟩ := matchIters_sound _ _ _ hit
        refine ⟨?_, ?_, he'⟩
        · conv_lhs => rw [← List.takeWhile_append_dropWhile isSpaceChar t]
          have hdw : t.dropWhile isSpaceChar =
              (t.dropWhile isSpaceChar).takeWhile Char.isDigit ++
                (t.dropWhile isSpaceChar).dropWhile Char.isDigit :=
            (List.takeWhile_append_dropWhile _ _).symm
          conv_lhs => rw [hdw, ht']
          simp [List.append_assoc]
        · intro x hx
          rcases List.mem_append.mp hx with hx'' | hx''
          · exact digit_not_space (List.mem_takeWhile_imp hx'')
          · exact hv' x hx''

/-! ### Failure of the suffix match at non-canonical split points -/

theorem matchRest_none_of_space (s' : List Char) (w : Char) (r : List Char)
    (hne : ∃ x ∈ s', isSpaceChar x = false) (hw : isSpaceChar w = true) :
    matchRest (s' ++ w :: r) = none := by
  cases h : matchRest (s' ++ w :: r) with
  | none => rfl
  | some p =>
    exfalso
    obtain ⟨v, e⟩ := p
    obtain ⟨ht, hv, he⟩ := matchRest_sound _ v e h
    have hall : ∀ c ∈ v ++ '.' :: e, isSpaceChar c = false := by
      intro c hc
      rcases List.mem_append.mp hc with hc' | hc'
      · exact hv c hc'
      · rcases List.mem_cons.mp hc' with rfl | hc''
        · decide
        · exact he c hc''
    have hdrop : (s' ++ w :: r).dropWhile isSpaceChar = v ++ '.' :: e := by
      have h2 : (s' ++ w :: r).takeWhile isSpaceChar ++ (s' ++ w :: r).dropWhile isSpaceChar
          = (s' ++ w :: r).takeWhile isSpaceChar ++ (v ++ '.' :: e) := by
        rw [List.takeWhile_append_dropWhile]; exact ht
      exact List.append_cancel_left h2
    have hdrop2 : (s' ++ w :: r).dropWhile isSpaceChar = s'.dropWhile isSpaceChar ++ w :: r :=
      dropWhile_append_of_not_all _ s' (w :: r) hne
    have hwmem : w ∈ v ++ '.' :: e := by
      rw [← hdrop, hdrop2]
      exact List.mem_append_right _ (by simp)
    exact absurd hw (by rw [hall w hwmem]; simp)

/-! ### The canonical parse of a well-formed versioned filename -/

theorem goMatch_canonical : ∀ (bs acc ws d1 d2 : List Char) (rest : List (List Char))
    (es : List Char),
    bs ≠ [] → (∀ c ∈ bs, c ≠ '\n') →
    (∀ c, bs.getLast? = some c → isSpaceChar c = false) →
    ws ≠ [] → (∀ c ∈ ws, isSpaceChar c = true) →
    d1 ≠ [] → (∀ c ∈ d1, c.isDigit = true) →
    d2 ≠ [] → (∀ c ∈ d2, c.isDigit = true) →
    (∀ d ∈ rest, d ≠ [] ∧ ∀ c ∈ d, c.isDigit = true) →
    es ≠ [] → (∀ c ∈ es, isWordChar c = true) →
    goMatch acc (bs ++ ws ++ (d1 ++ flatTail (d2 :: rest)) ++ '.' :: es)
      = some (acc ++ bs, d1 ++ flatTail (d2 :: rest), es) := by
  intro bs
  induction bs with
  | nil => intro acc _ _ _ _ _ hbs; exact absurd rfl hbs
  | cons c bs' ih =>
    intro acc ws d1 d2 rest es _ hnl hlast hws hwsp hd1 hd1d hd2 hd2d hrest hes hesw
    have hc : c ≠ '\n' := hnl c (by simp)
    cases bs' with
    | nil =>
      have hfull : matchRest (ws ++ (d1 ++ flatTail (d2 :: rest)) ++ '.' :: es)
          = some (d1 ++ flatTail (d2 :: rest), es) :=
        matchRest_full ws d1 d2 rest es hws hwsp hd1 hd1d hd2 hd2d hrest hes hesw
      have hshape : ([c] ++ ws ++ (d1 ++ flatTail (d2 :: rest)) ++ '.' :: es)
          = c :: (ws ++ (d1 ++ flatTail (d2 :: rest)) ++ '.' :: es) := by
        simp [List.append_assoc]
      rw [hshape]
      simp only [goMatch]
      rw [if_neg hc, hfull]
    | cons c2 t =>
      have hlast' : ∀ x, (c2 :: t).getLast? = some x → isSpaceChar x = false := by
        intro x hx
        apply hlast
        rw [List.getLast?_cons_cons]
        exact hx
      have hnonall : ∃ x ∈ c2 :: t, isSpaceChar x = false := by
        cases hgl : (c2 :: t).getLast? with
        | none => simp at hgl
        | some x => exact ⟨x, mem_of_getLastQ _ x hgl, hlast' x hgl⟩
      obtain ⟨w, ws', hwsplit⟩ : ∃ w ws', ws = w :: ws' := by
        cases ws with
        | nil => exact absurd rfl hws
        | cons a b => exact ⟨a, b, rfl⟩
      have hwsp1 : isSpaceChar w = true := hwsp w (by simp [hwsplit])
      have hnone : matchRest ((c2 :: t) ++ ws ++ (d1 ++ flatTail (d2 :: rest)) ++ '.' :: es)
          = none := by
        have hshape2 : ((c2 :: t) ++ ws ++ (d1 ++ flatTail (d2 :: rest)) ++ '.' :: es)
            = (c2 :: t) ++ w :: (ws' ++ ((d1 ++ flatTail (d2 :: rest)) ++ '.' :: es)) := by
          simp [hwsplit, List.append_assoc]
        rw [hshape2]
        exact matchRest_none_of_space (c2 :: t) w _ hnonall hwsp1
      have hshape3 : ((c :: c2 :: t) ++ ws ++ (d1 ++ flatTail (d2 :: rest)) ++ '.' :: es)
          = c :: ((c2 :: t) ++ ws ++ (d1 ++ flatTail (d2 :: rest)) ++ '.' :: es) := by
        simp [List.append_assoc]
      rw [hshape3]
      have hrec := ih (acc ++ [c]) ws d1 d2 rest es (by simp)
        (fun x hx => hnl x (by simp [hx])) hlast' hws hwsp hd1 hd1d hd2 hd2d hrest hes hesw
      simp only [goMatch]
      rw [if_neg hc, hnone]
      show goMatch (acc ++ [c]) ((c2 :: t) ++ ws ++ (d1 ++ flatTail (d2 :: rest)) ++ '.' :: es)
        = some (acc ++ c :: c2 :: t, d1 ++ flatTail (d2 :: rest), es)
      rw [hrec]
      simp

theorem VERSION_PATTERN_match_canonical (bs ws d1 d2 : List Char) (rest : List (List Char))
    (es : List Char)
    (hbs : bs ≠ []) (hnl : ∀ c ∈ bs, c ≠ '\n')
    (hlast : ∀ c, bs.getLast? = some c → isSpaceChar c = false)
    (hws : ws ≠ []) (hwsp : ∀ c ∈ ws, isSpaceChar c = true)
    (hd1 : d1 ≠ []) (hd1d : ∀ c ∈ d1, c.isDigit = true)
    (hd2 : d2 ≠ []) (hd2d : ∀ c ∈ d2, c.isDigit = true)
    (hrest : ∀ d ∈ rest, d ≠ [] ∧ ∀ c ∈ d, c.isDigit = true)
    (hes : es ≠ []) (hesw : ∀ c ∈ es, isWordChar c = true) :
    VERSION_PATTERN_match (String.mk (bs ++ ws ++ (d1 ++ flatTail (d2 :: rest)) ++ '.' :: es))
      = some (String.mk bs, String.mk (d1 ++ flatTail (d2 :: rest)), String.mk es) := by
  have h := goMatch_canonical bs [] ws d1 d2 rest es hbs hnl hlast hws hwsp hd1 hd1d hd2 hd2d
    hrest hes hesw
  simp only [List.nil_append] at h
  have hts : (String.mk (bs ++ ws ++ (d1 ++ flatTail (d2 :: rest)) ++ '.' :: es)).toList
      = bs ++ ws ++ (d1 ++ flatTail (d2 :: rest)) ++ '.' :: es := rfl
  unfold VERSION_PATTERN_match
  rw [hts, h]
  rfl

/-! ### Transitivity and totality of the version order; agreement of the
pairwise segment comparison with lexicographic order -/

theorem versionLe_total : ∀ u v : List Nat, versionLe u v = true ∨ versionLe v u = true := by
  intro u
  induction u with
  | nil => intro v; left; rfl
  | cons a as ih =>
    intro v
    cases v with
    | nil => right; rfl
    | cons b bs =>
      rcases Nat.lt_trichotomy a b with h | h | h
      · left; simp [versionLe, h]
      · subst h
        have hlt : ¬ a < a := Nat.lt_irrefl a
        rcases ih bs with h' | h'
        · left; simp [versionLe, hlt, h']
        · right; simp [versionLe, hlt, h']
      · right; simp [versionLe, h]

theorem versionLe_trans : ∀ u v w : List Nat,
    versionLe u v = true → versionLe v w = true → versionLe u w = true := by
  intro u
  induction u with
  | nil => intro v w _ _; rfl
  | cons a as ih =>
    intro v w h1 h2
    cases v with
    | nil => exact absurd h1 (by simp [versionLe])
    | cons b bs =>
      cases w with
      | nil => exact absurd h2 (by simp [versionLe])
      | cons c cs =>
        simp only [versionLe] at h1 h2 ⊢
        by_cases hab : a < b
        · by_cases hac : a < c
          · simp [hac]
          · by_cases hbc : b < c
            · omega
            · by_cases hcb : c < b
              · simp [hab, hcb] at h2
                omega
              · omega
        · by_cases hba : b < a
          · simp [hab, hba] at h1
          · have hEq : a = b := by omega
            subst hEq
            by_cases hac : a < c
            · simp [hac]
            · by_cases hca : c < a
              · simp [hac, hca] at h2
              · simp [hac, hca] at h2 ⊢
                simp [hab] at h1
                exact ih bs cs h1 h2

theorem pairwiseSegLt_iff_lex : ∀ u v : List Nat,
    pairwiseSegLt u v = true ↔ List.Lex (· < ·) u v := by
  intro u
  induction u with
  | nil =>
    intro v
    cases v with
    | nil =>
      constructor
      · intro h; exact absurd h (by simp [pairwiseSegLt])
      · intro h; cases h
    | cons b bs =>
      constructor
      · intro _; exact List.Lex.nil
      · intro _; rfl
  | cons a as ih =>
    intro v
    cases v with
    | nil =>
      constructor
      · intro h; exact absurd h (by simp [pairwiseSegLt])
      · intro h; cases h
    | cons b bs =>
      by_cases hab : a < b
      · constructor
        · intro _; exact List.Lex.rel hab
        · intro _; simp [pairwiseSegLt, hab]
      · by_cases heq : a = b
        · subst heq
          have h1 : pairwiseSegLt (a :: as) (a :: bs) = pairwiseSegLt as bs := by
            simp [pairwiseSegLt, hab]
          rw [h1]
          constructor
          · intro h; exact List.Lex.cons ((ih bs).mp h)
          · intro h
            cases h with
            | cons h' => exact (ih bs).mpr h'
            | rel h' => exact absurd h' hab
        · constructor
          · intro h; exact absurd h (by simp [pairwiseSegLt, hab, heq])
          · intro h
            cases h with
            | cons h' => exact absurd rfl heq
            | rel h' => exact absurd h' hab

/-! ### Association-list lemmas for the repository tree -/

/-- Lookup in the tree association list. -/
def lookupA : List (String × Nat) → String → Option Nat
  | [], _ => none
  | (k', v') :: rest, k => if k' = k then some v' else lookupA rest k

theorem upsert_of_lookup : ∀ (m : List (String × Nat)) (k : String) (v : Nat),
    lookupA m k = some v → upsert m k v = m := by
  intro m
  induction m with
  | nil => intro k v h; simp [lookupA] at h
  | cons p rest ih =>
    intro k v h
    obtain ⟨k', v'⟩ := p
    by_cases hk : k' = k
    · subst hk
      simp [lookupA] at h
      simp [upsert, h]
    · simp [lookupA, hk] at h
      simp [upsert, hk, ih k v h]

theorem lookup_upsert : ∀ (m : List (String × Nat)) (k : String) (v : Nat),
    lookupA (upsert m k v) k = some v := by
  intro m
  induction m with
  | nil => intro k v; simp [upsert, lookupA]
  | cons p rest ih =>
    intro k v
    obtain ⟨k', v'⟩ := p
    by_cases hk : k' = k
    · subst hk; simp [upsert, lookupA]
    · simp [upsert, lookupA, hk, ih]

theorem lookup_upsert_ne : ∀ (m : List (String × Nat)) (k q : String) (v : Nat), q ≠ k →
    lookupA (upsert m k v) q = lookupA m q := by
  intro m
  induction m with
  | nil => intro k q v hq; simp [upsert, lookupA, Ne.symm hq]
  | cons p rest ih =>
    intro k q v hq
    obtain ⟨k', v'⟩ := p
    by_cases hk : k' = k
    · subst hk
      simp [upsert, lookupA, Ne.symm hq]
    · simp [upsert, lookupA, hk, ih _ _ _ hq]

theorem upsert_upsert_same : ∀ (m : List (String × Nat)) (k : String) (a b : Nat),
    upsert (upsert m k a) k b = upsert m k b := by
  intro m
  induction m with
  | nil => intro k a b; simp [upsert]
  | cons p rest ih =>
    intro k a b
    obtain ⟨k', v'⟩ := p
    by_cases hk : k' = k
    · subst hk; simp [upsert]
    · simp [upsert, hk, ih]

/-- Staging the same target name and content twice changes nothing the second
time: re-copying a byte-identical file leaves git status clean. -/
theorem stageFile_idem (conv : Nat → Option Nat) (relDir targetName : String) (content : Nat)
    (t : List (String × Nat)) :
    stageFile conv relDir targetName content (stageFile conv relDir targetName content t)
      = stageFile conv relDir targetName content t := by
  cases hcomp : companionFor conv targetName content with
  | none =>
    have hs : ∀ m, stageFile conv relDir targetName content m
        = upsert m (gitPathIn relDir targetName) content := by
      intro m; simp [stageFile, hcomp]
    rw [hs, hs]
    apply upsert_of_lookup
    exact lookup_upsert _ _ _
  | some pr =>
    obtain ⟨cn, cc⟩ := pr
    have hs : ∀ m, stageFile conv relDir targetName content m
        = upsert (upsert m (gitPathIn relDir targetName) content) (gitPathIn relDir cn) cc := by
      intro m; simp [stageFile, hcomp]
    rw [hs, hs]
    by_cases hkey : gitPathIn relDir cn = gitPathIn relDir targetName
    · rw [hkey]
      simp only [upsert_upsert_same]
    · have h1 : upsert (upsert (upsert t (gitPathIn relDir targetName) content)
          (gitPathIn relDir cn) cc) (gitPathIn relDir targetName) content
          = upsert (upsert t (gitPathIn relDir targetName) content) (gitPathIn relDir cn) cc := by
        apply upsert_of_lookup
        rw [lookup_upsert_ne _ _ _ _ (fun h => hkey h.symm)]
        exact lookup_upsert _ _ _
      rw [h1]
      apply upsert_of_lookup
      exact lookup_upsert _ _ _

/-! ### Tracker operation lemmas -/

theorem mark_file_pageVersions (tr : Tracker) (p : String) :
    (tr.mark_file_committed p).pageVersions = tr.pageVersions := by
  unfold Tracker.mark_file_committed
  split <;> rfl

theorem mark_file_attachments (tr : Tracker) (p : String) :
    (tr.mark_file_committed p).attachments = tr.attachments := by
  unfold Tracker.mark_file_committed
  split <;> rfl

theorem mark_version_files (tr : Tracker) (pid : String) (n : Nat) (fmt : String) (now : Nat) :
    (tr.mark_version_committed pid n fmt now).files = tr.files := rfl

theorem mark_attachment_files (tr : Tracker) (pid fname : String) (now : Nat) :
    (tr.mark_attachment_committed_by_filename pid fname now).files = tr.files := rfl

theorem mem_mark_file (tr : Tracker) (p q : String) :
    q ∈ (tr.mark_file_committed p).files ↔ q ∈ tr.files ∨ q = p := by
  unfold Tracker.mark_file_committed
  by_cases hp : p ∈ tr.files
  · rw [if_pos hp]
    constructor
    · exact Or.inl
    · rintro (h | rfl)
      · exact h
      · exact hp
  · rw [if_neg hp]
    simp

theorem plainMarks_files (source_rel fname : String) (page_id : Option String) (now : Nat)
    (tr : Tracker) :
    (plainMarks source_rel fname page_id now tr).files
      = (tr.mark_file_committed source_rel).files := by
  unfold plainMarks
  cases page_id with
  | none => rfl
  | some pid => rw [mark_attachment_files]

theorem versionMarks_files (source_rel version_str ext : String) (page_id : Option String)
    (now : Nat) (tr : Tracker) :
    (versionMarks source_rel version_str ext page_id now tr).files
      = (tr.mark_file_committed source_rel).files := by
  unfold versionMarks
  cases page_id with
  | none => rfl
  | some pid =>
    cases _extract_confluence_version version_str with
    | none => rfl
    | some n => rw [mark_version_files]

/-! ### Engine invariants: ledger growth, skip behavior, dry-run purity -/

/-- The committed-files set visible in a state (empty without a tracker). -/
def filesOf (st : RState) : List String :=
  match st.tracker with
  | some tr => tr.files
  | none => []

theorem processPlain_isSome (conv : Nat → Option Nat) (s : String) (now : Nat) (dry : Bool)
    (st : RState) (f : SrcFile) :
    ((processPlain conv s now dry st f).tracker).isSome = st.tracker.isSome := by
  unfold processPlain
  split
  · rfl
  · split
    · rfl
    · split
      · cases st.tracker <;> rfl
      · cases st.tracker <;> rfl

theorem processVersion_isSome (conv : Nat → Option Nat) (now : Nat) (dry : Bool)
    (pid : Option String) (relDir name ext : String) (st : RState) (v : String × SrcFile) :
    ((processVersion conv now dry pid relDir name ext st v).tracker).isSome
      = st.tracker.isSome := by
  unfold processVersion
  split
  · rfl
  · split
    · rfl
    · split
      · cases st.tracker <;> rfl
      · cases st.tracker <;> rfl

theorem processPlain_files_mono (conv : Nat → Option Nat) (s : String) (now : Nat) (dry : Bool)
    (st : RState) (f : SrcFile) (q : String) (hq : q ∈ filesOf st) :
    q ∈ filesOf (processPlain conv s now dry st f) := by
  unfold processPlain
  split
  · exact hq
  · split
    · exact hq
    · have hmain : ∀ pid,
          q ∈ filesOf
            { st with tracker := (st.tracker.map (plainMarks (sourceRel f) f.fname pid now)) } := by
        intro pid
        cases hst : st.tracker with
        | none => rw [filesOf, hst] at hq; simp at hq
        | some tr =>
          rw [filesOf, hst] at hq
          simp only [filesOf, hst, Option.map]
          rw [plainMarks_files]
          exact (mem_mark_file tr _ q).mpr (Or.inl hq)
      split
      · exact hmain _
      · exact hmain _

theorem processVersion_files_mono (conv : Nat → Option Nat) (now : Nat) (dry : Bool)
    (pid : Option String) (relDir name ext : String) (st : RState) (v : String × SrcFile)
    (q : String) (hq : q ∈ filesOf st) :
    q ∈ filesOf (processVersion conv now dry pid relDir name ext st v) := by
  unfold processVersion
  split
  · exact hq
  · split
    · exact hq
    · split
      · cases hst : st.tracker with
        | none => rw [filesOf, hst] at hq; simp at hq
        | some tr =>
          rw [filesOf, hst] at hq
          simp only [filesOf, hst, Option.map]
          exact (mem_mark_file tr _ q).mpr (Or.inl hq)
      · cases hst : st.tracker with
        | none => rw [filesOf, hst] at hq; simp at hq
        | some tr =>
          rw [filesOf, hst] at hq
          simp only [filesOf, hst, Option.map]
          rw [versionMarks_files]
          exact (mem_mark_file tr _ q).mpr (Or.inl hq)

theorem processPlain_files_self (conv : Nat → Option Nat) (s : String) (now : Nat)
    (st : RState) (f : SrcFile) (hsome : st.tracker.isSome = true) :
    sourceRel f ∈ filesOf (processPlain conv s now false st f) := by
  obtain ⟨tr, hst⟩ := Option.isSome_iff_exists.mp hsome
  unfold processPlain
  rw [hst]
  by_cases hmem : sourceRel f ∈ tr.files
  · rw [if_pos (by simp [Tracker.is_file_committed, hmem])]
    simp [filesOf, hst, hmem]
  · rw [if_neg (by simp [Tracker.is_file_committed, hmem])]
    rw [if_neg (by simp)]
    split
    all_goals
      simp only [filesOf, Option.map]
      rw [plainMarks_files]
      exact (mem_mark_file tr _ _).mpr (Or.inr rfl)

theorem processVersion_files_self (conv : Nat → Option Nat) (now : Nat)
    (pid : Option String) (relDir name ext : String) (st : RState) (v : String × SrcFile)
    (hsome : st.tracker.isSome = true) :
    sourceRel v.2 ∈ filesOf (processVersion conv now false pid relDir name ext st v) := by
  obtain ⟨tr, hst⟩ := Option.isSome_iff_exists.mp hsome
  unfold processVersion
  rw [hst]
  by_cases hmem : sourceRel v.2 ∈ tr.files
  · rw [if_pos (by simp [Tracker.is_file_committed, hmem])]
    simp [filesOf, hst, hmem]
  · rw [if_neg (by simp [Tracker.is_file_committed, hmem])]
    rw [if_neg (by simp)]
    split
    · simp only [filesOf, hst, Option.map]
      exact (mem_mark_file tr _ _).mpr (Or.inr rfl)
    · simp only [filesOf, hst, Option.map]
      rw [versionMarks_files]
      exact (mem_mark_file tr _ _).mpr (Or.inr rfl)

theorem processPlain_skip_eq (conv : Nat → Option Nat) (s : String) (now : Nat) (dry : Bool)
    (st : RState) (f : SrcFile) (tr : Tracker)
    (hst : st.tracker = some tr) (hmem : sourceRel f ∈ tr.files) :
    processPlain conv s now dry st f = { st with skipped := st.skipped + 1 } := by
  unfold processPlain
  rw [hst]
  rw [if_pos (by simp [Tracker.is_file_committed, hmem])]

theorem processVersion_skip_eq (conv : Nat → Option Nat) (now : Nat) (dry : Bool)
    (pid : Option String) (relDir name ext : String) (st : RState) (v : String × SrcFile)
    (tr : Tracker) (hst : st.tracker = some tr) (hmem : sourceRel v.2 ∈ tr.files) :
    processVersion conv now dry pid relDir name ext st v
      = { st with skipped := st.skipped + 1 } := by
  unfold processVersion
  rw [hst]
  rw [if_pos (by simp [Tracker.is_file_committed, hmem])]

theorem processPlain_dry (conv : Nat → Option Nat) (s : String) (now : Nat)
    (st : RState) (f : SrcFile) :
    (processPlain conv s now true st f).repo = st.repo ∧
      (processPlain conv s now true st f).tracker = st.tracker := by
  unfold processPlain
  split
  · exact ⟨rfl, rfl⟩
  · rw [if_pos rfl]
    exact ⟨rfl, rfl⟩

theorem processVersion_dry (conv : Nat → Option Nat) (now : Nat)
    (pid : Option String) (relDir name ext : String) (st : RState) (v : String × SrcFile) :
    (processVersion conv now true pid relDir name ext st v).repo = st.repo ∧
      (processVersion conv now true pid relDir name ext st v).tracker = st.tracker := by
  unfold processVersion
  split
  · exact ⟨rfl, rfl⟩
  · rw [if_pos rfl]
    exact ⟨rfl, rfl⟩

/-! ### Fold-level lemmas over the unit lists -/

theorem foldl_isSome {β : Type} (step : RState → β → RState)
    (hstep : ∀ st x, ((step st x).tracker).isSome = st.tracker.isSome) :
    ∀ (L : List β) (st : RState), ((L.foldl step st).tracker).isSome = st.tracker.isSome := by
  intro L
  induction L with
  | nil => intro st; rfl
  | cons x L ih => intro st; rw [List.foldl_cons, ih, hstep]

theorem foldl_files_mono {β : Type} (step : RState → β → RState)
    (hstep : ∀ st x q, q ∈ filesOf st → q ∈ filesOf (step st x)) :
    ∀ (L : List β) (st : RState) (q : String), q ∈ filesOf st → q ∈ filesOf (L.foldl step st) := by
  intro L
  induction L with
  | nil => intro st q hq; exact hq
  | cons x L ih =>
    intro st q hq
    rw [List.foldl_cons]
    exact ih _ _ (hstep st x q hq)

theorem foldl_files_marks {β : Type} (step : RState → β → RState) (pathOf : β → String)
    (hSome : ∀ st x, ((step st x).tracker).isSome = st.tracker.isSome)
    (hMono : ∀ st x q, q ∈ filesOf st → q ∈ filesOf (step st x))
    (hSelf : ∀ st x, st.tracker.isSome = true → pathOf x ∈ filesOf (step st x)) :
    ∀ (L : List β) (st : RState), st.tracker.isSome = true →
      ∀ x ∈ L, pathOf x ∈ filesOf (L.foldl step st) := by
  intro L
  induction L with
  | nil => intro st _ x hx; simp at hx
  | cons y L ih =>
    intro st hsome x hx
    rw [List.foldl_cons]
    rcases List.mem_cons.mp hx with rfl | hx'
    · exact foldl_files_mono step hMono L _ _ (hSelf st x hsome)
    · exact ih (step st y) (by rw [hSome]; exact hsome) x hx'

theorem foldl_skip_units {β : Type} (step : RState → β → RState) (pathOf : β → String)
    (hSkip : ∀ st x tr, st.tracker = some tr → pathOf x ∈ tr.files →
      step st x = { st with skipped := st.skipped + 1 }) :
    ∀ (L : List β) (st : RState) (tr : Tracker), st.tracker = some tr →
      (∀ x ∈ L, pathOf x ∈ tr.files) →
      L.foldl step st = { st with skipped := st.skipped + L.length } := by
  intro L
  induction L with
  | nil => intro st tr _ _; rfl
  | cons y L ih =>
    intro st tr hst hall
    rw [List.foldl_cons, hSkip st y tr hst (hall y (by simp))]
    rw [ih { st with skipped := st.skipped + 1 } tr hst (fun x hx => hall x (by simp [hx]))]
    show RState.mk st.commits (st.skipped + 1 + L.length) st.repo st.tracker
      = RState.mk st.commits (st.skipped + (L.length + 1)) st.repo st.tracker
    have harith : st.skipped + 1 + L.length = st.skipped + (L.length + 1) := by omega
    rw [harith]

theorem foldl_dry_pure {β : Type} (step : RState → β → RState)
    (hstep : ∀ st x, (step st x).repo = st.repo ∧ (step st x).tracker = st.tracker) :
    ∀ (L : List β) (st : RState),
      (L.foldl step st).repo = st.repo ∧ (L.foldl step st).tracker = st.tracker := by
  intro L
  induction L with
  | nil => intro st; exact ⟨rfl, rfl⟩
  | cons x L ih =>
    intro st
    rw [List.foldl_cons]
    obtain ⟨h1, h2⟩ := ih (step st x)
    obtain ⟨h3, h4⟩ := hstep st x
    exact ⟨by rw [h1, h3], by rw [h2, h4]⟩

/-! ### Group-level lemmas -/

theorem processGroup_isSome (conv : Nat → Option Nat) (s : String) (now : Nat) (dry : Bool)
    (st : RState) (g : (String × String × String) × List (String × SrcFile)) :
    ((processGroup conv s now dry st g).tracker).isSome = st.tracker.isSome := by
  unfold processGroup
  exact foldl_isSome _ (fun st' x => processVersion_isSome conv now dry _ _ _ _ st' x) g.2 st

theorem processGroup_files_mono (conv : Nat → Option Nat) (s : String) (now : Nat) (dry : Bool)
    (st : RState) (g : (String × String × String) × List (String × SrcFile)) (q : String)
    (hq : q ∈ filesOf st) :
    q ∈ filesOf (processGroup conv s now dry st g) := by
  unfold processGroup
  exact foldl_files_mono _ (fun st' x q' hq' =>
    processVersion_files_mono conv now dry _ _ _ _ st' x q' hq') g.2 st q hq

theorem processGroup_marks (conv : Nat → Option Nat) (s : String) (now : Nat)
    (st : RState) (g : (String × String × String) × List (String × SrcFile))
    (hsome : st.tracker.isSome = true) :
    ∀ x ∈ g.2, sourceRel x.2 ∈ filesOf (processGroup conv s now false st g) := by
  unfold processGroup
  exact foldl_files_marks _ (fun x => sourceRel x.2)
    (fun st' x => processVersion_isSome conv now false _ _ _ _ st' x)
    (fun st' x q' hq' => processVersion_files_mono conv now false _ _ _ _ st' x q' hq')
    (fun st' x h => processVersion_files_self conv now _ _ _ _ st' x h)
    g.2 st hsome

theorem processGroup_skip (conv : Nat → Option Nat) (s : String) (now : Nat) (dry : Bool)
    (st : RState) (g : (String × String × String) × List (String × SrcFile)) (tr : Tracker)
    (hst : st.tracker = some tr) (hall : ∀ x ∈ g.2, sourceRel x.2 ∈ tr.files) :
    processGroup conv s now dry st g = { st with skipped := st.skipped + g.2.length } := by
  unfold processGroup
  exact foldl_skip_units _ (fun x => sourceRel x.2)
    (fun st' x tr' hst' hmem => processVersion_skip_eq conv now dry _ _ _ _ st' x tr' hst' hmem)
    g.2 st tr hst hall

theorem processGroup_dry (conv : Nat → Option Nat) (s : String) (now : Nat)
    (st : RState) (g : (String × String × String) × List (String × SrcFile)) :
    (processGroup conv s now true st g).repo = st.repo ∧
      (processGroup conv s now true st g).tracker = st.tracker := by
  unfold processGroup
  exact foldl_dry_pure _ (fun st' x => processVersion_dry conv now _ _ _ _ st' x) g.2 st

theorem foldl_groups_skip (conv : Nat → Option Nat) (s : String) (now : Nat) (dry : Bool) :
    ∀ (G : List ((String × String × String) × List (String × SrcFile))) (st : RState)
      (tr : Tracker), st.tracker = some tr →
      (∀ g ∈ G, ∀ x ∈ g.2, sourceRel x.2 ∈ tr.files) →
      G.foldl (processGroup conv s now dry) st
        = { st with skipped := st.skipped + (G.map (fun g => g.2.length)).sum } := by
  intro G
  induction G with
  | nil => intro st tr _ _; rfl
  | cons g G ih =>
    intro st tr hst hall
    rw [List.foldl_cons, processGroup_skip conv s now dry st g tr hst (hall g (by simp))]
    rw [ih { st with skipped := st.skipped + g.2.length } tr hst
      (fun g' hg' x hx => hall g' (by simp [hg']) x hx)]
    show RState.mk st.commits (st.skipped + g.2.length + (G.map (fun g => g.2.length)).sum)
        st.repo st.tracker
      = RState.mk st.commits (st.skipped + (g.2.length + (G.map (fun g => g.2.length)).sum))
        st.repo st.tracker
    have harith : st.skipped + g.2.length + (G.map (fun g => g.2.length)).sum
        = st.skipped + (g.2.length + (G.map (fun g => g.2.length)).sum) := by omega
    rw [harith]

theorem foldl_groups_marks (conv : Nat → Option Nat) (s : String) (now : Nat) :
    ∀ (G : List ((String × String × String) × List (String × SrcFile))) (st : RState),
      st.tracker.isSome = true →
      ∀ g ∈ G, ∀ x ∈ g.2,
        sourceRel x.2 ∈ filesOf (G.foldl (processGroup conv s now false) st) := by
  intro G
  induction G with
  | nil => intro st _ g hg; simp at hg
  | cons g0 G ih =>
    intro st hsome g hg x hx
    rw [List.foldl_cons]
    rcases List.mem_cons.mp hg with rfl | hg'
    · exact foldl_files_mono _
        (fun st' g' q hq => processGroup_files_mono conv s now false st' g' q hq) G _ _
        (processGroup_marks conv s now st g hsome x hx)
    · exact ih (processGroup conv s now false st g0)
        (by rw [processGroup_isSome]; exact hsome) g hg' x hx

/-! ### Claim theorems -/

/-- C1: Idempotent replay.  For every source tree, target repository and
initial ledger state, after commit_all has run to completion with a ledger
(tracker present, not a dry run), an immediately repeated run over the
unchanged source tree skips every discovered unit via the ledger (the
skipped counter equals the total number of units), creates zero new commits
(repository unchanged), leaves the ledger unchanged, and returns a count
of 0. -/
theorem c1_idempotent_replay (conv : Nat → Option Nat) (srcDirName : String) (now now2 : Nat)
    (tree : List SrcFile) (repo0 : Repo) (tr0 : Tracker) :
    commit_all conv srcDirName now2 tree
        (commit_all conv srcDirName now tree repo0 (some tr0) false).repo
        (commit_all conv srcDirName now tree repo0 (some tr0) false).tracker false
      = { commits := 0, skipped := totalUnits tree,
          repo := (commit_all conv srcDirName now tree repo0 (some tr0) false).repo,
          tracker := (commit_all conv srcDirName now tree repo0 (some tr0) false).tracker } := by
  set r1 := commit_all conv srcDirName now tree repo0 (some tr0) false with hr1def
  by_cases hempty : (find_all_files tree).1.isEmpty ∧ (find_all_files tree).2.isEmpty
  · have hG : (find_all_files tree).1 = [] := List.isEmpty_iff.mp hempty.1
    have hP : (find_all_files tree).2 = [] := List.isEmpty_iff.mp hempty.2
    have htu : totalUnits tree = 0 := by
      unfold totalUnits
      rw [hG, hP]
      rfl
    unfold commit_all
    rw [if_pos hempty, htu]
  · have hr1 : r1 = (find_all_files tree).1.foldl (processGroup conv srcDirName now false)
        ((find_all_files tree).2.foldl (processPlain conv srcDirName now false)
          ⟨0, 0, repo0, some tr0⟩) := by
      rw [hr1def]
      unfold commit_all
      rw [if_neg hempty]
    have hsomeSt1 : (((find_all_files tree).2.foldl (processPlain conv srcDirName now false)
        ⟨0, 0, repo0, some tr0⟩).tracker).isSome = true := by
      rw [foldl_isSome _ (fun st x => processPlain_isSome conv srcDirName now false st x)]
      rfl
    have hsomeR1 : (r1.tracker).isSome = true := by
      rw [hr1, foldl_isSome _ (fun st g => processGroup_isSome conv srcDirName now false st g)]
      exact hsomeSt1
    obtain ⟨tr1, htr1⟩ := Option.isSome_iff_exists.mp hsomeR1
    have hfiles : filesOf r1 = tr1.files := by
      unfold filesOf
      rw [htr1]
    have hplainmem : ∀ f ∈ (find_all_files tree).2, sourceRel f ∈ tr1.files := by
      intro f hf
      rw [← hfiles, hr1]
      apply foldl_files_mono _ (fun st g q hq => processGroup_files_mono conv srcDirName now
        false st g q hq)
      exact foldl_files_marks _ sourceRel
        (fun st x => processPlain_isSome conv srcDirName now false st x)
        (fun st x q hq => processPlain_files_mono conv srcDirName now false st x q hq)
        (fun st x h => processPlain_files_self conv srcDirName now st x h)
        (find_all_files tree).2 ⟨0, 0, repo0, some tr0⟩ rfl f hf
    have hvermem : ∀ g ∈ (find_all_files tree).1, ∀ x ∈ g.2, sourceRel x.2 ∈ tr1.files := by
      intro g hg x hx
      rw [← hfiles, hr1]
      exact foldl_groups_marks conv srcDirName now (find_all_files tree).1 _ hsomeSt1 g hg x hx
    unfold commit_all
    rw [if_neg hempty]
    have hskipP : (find_all_files tree).2.foldl (processPlain conv srcDirName now2 false)
        ⟨0, 0, r1.repo, r1.tracker⟩
        = ⟨0, 0 + (find_all_files tree).2.length, r1.repo, r1.tracker⟩ := by
      exact foldl_skip_units _ sourceRel
        (fun st x tr hst hmem => processPlain_skip_eq conv srcDirName now2 false st x tr hst hmem)
        (find_all_files tree).2 _ tr1 htr1 hplainmem
    rw [hskipP]
    have hskipG : (find_all_files tree).1.foldl (processGroup conv srcDirName now2 false)
        ⟨0, 0 + (find_all_files tree).2.length, r1.repo, r1.tracker⟩
        = ⟨0, 0 + (find_all_files tree).2.length
              + ((find_all_files tree).1.map (fun g => g.2.length)).sum,
            r1.repo, r1.tracker⟩ := by
      exact foldl_groups_skip conv srcDirName now2 false (find_all_files tree).1 _ tr1 htr1 hvermem
    rw [hskipG]
    unfold totalUnits
    have harith : 0 + (find_all_files tree).2.length
        + ((find_all_files tree).1.map (fun g => g.2.length)).sum
        = (find_all_files tree).2.length
          + ((find_all_files tree).1.map (fun g => g.2.length)).sum := by omega
    rw [harith]

/-- C6: Dry-run purity.  For every source tree, target repository and ledger
state, a dry-run invocation of commit_all mutates neither the repository nor
the ledger: both come out identical (in particular the commit count of the
repository is unchanged); the run only discovers, logs and counts. -/
theorem c6_dry_run_pure (conv : Nat → Option Nat) (srcDirName : String) (now : Nat)
    (tree : List SrcFile) (repo : Repo) (tracker : Option Tracker) :
    (commit_all conv srcDirName now tree repo tracker true).repo = repo ∧
      (commit_all conv srcDirName now tree repo tracker true).tracker = tracker := by
  unfold commit_all
  split
  · exact ⟨rfl, rfl⟩
  · obtain ⟨h1, h2⟩ := foldl_dry_pure (processPlain conv srcDirName now true)
      (fun st x => processPlain_dry conv srcDirName now st x) (find_all_files tree).2
      ⟨0, 0, repo, tracker⟩
    obtain ⟨h3, h4⟩ := foldl_dry_pure (processGroup conv srcDirName now true)
      (fun st g => processGroup_dry conv srcDirName now st g) (find_all_files tree).1
      ((find_all_files tree).2.foldl (processPlain conv srcDirName now true)
        ⟨0, 0, repo, tracker⟩)
    exact ⟨by rw [h3, h1], by rw [h4, h2]⟩

instance : IsTotal (String × SrcFile) vle :=
  ⟨fun a b => versionLe_total (parse_version a.1) (parse_version b.1)⟩

instance : IsTrans (String × SrcFile) vle :=
  ⟨fun a b c h1 h2 => versionLe_trans (parse_version a.1) (parse_version b.1)
    (parse_version c.1) h1 h2⟩

/-- C2: Version ordering.  Comparing parse_version tuples lexicographically
agrees with comparing the numeric segments pairwise left to right with a
proper prefix sorting first (no zero-padding); in particular the tuple of
0.1.5.1 sorts before the tuple of 0.1.10.0; and every version list of every
group produced by discovery is sorted ascending in this order. -/
theorem c2_version_ordering :
    (∀ a b : String, List.Lex (· < ·) (parse_version a) (parse_version b)
        ↔ pairwiseSegLt (parse_version a) (parse_version b) = true)
    ∧ pairwiseSegLt (parse_version ("0.1.5.1")) (parse_version ("0.1.10.0")) = true
    ∧ ∀ (tree : List SrcFile) (k : String × String × String) (vs : List (String × SrcFile)),
        (k, vs) ∈ (find_all_files tree).1 → List.Sorted vle vs := by
  refine ⟨fun a b => (pairwiseSegLt_iff_lex (parse_version a) (parse_version b)).symm,
    by decide, ?_⟩
  intro tree k vs hmem
  unfold find_all_files at hmem
  rw [List.mem_map] at hmem
  obtain ⟨k', _, hk'⟩ := hmem
  have hvs : vs = (rawGroup tree k').insertionSort vle := (congrArg Prod.snd hk').symm
  rw [hvs]
  exact List.sorted_insertionSort vle (rawGroup tree k')

/-- C5: At-most-once commit for identical content.  If two consecutive
versions of a group are byte-identical, neither is recorded in the ledger
yet, the run is not a dry run, and the first of the pair stages actual
changes, then processing the pair creates exactly one commit: the second
version is copied and staged but produces no pending changes and no commit,
while both source-relative paths end up recorded committed in the ledger. -/
theorem c5_identical_pair_single_commit (conv : Nat → Option Nat) (now : Nat)
    (pid : Option String) (relDir name ext : String) (st : RState) (tr : Tracker)
    (v1 v2 : String) (f1 f2 : SrcFile)
    (hst : st.tracker = some tr)
    (h1 : sourceRel f1 ∉ tr.files)
    (h2 : sourceRel f2 ∉ tr.files)
    (hne : sourceRel f2 ≠ sourceRel f1)
    (hcontent : f2.content = f1.content)
    (hpending : stageFile conv relDir (name ++ "." ++ ext) f1.content st.repo.tree
      ≠ st.repo.tree) :
    (processVersion conv now false pid relDir name ext
        (processVersion conv now false pid relDir name ext st (v1, f1)) (v2, f2)).commits
      = st.commits + 1
    ∧ (processVersion conv now false pid relDir name ext
        (processVersion conv now false pid relDir name ext st (v1, f1)) (v2, f2)).repo.count
      = st.repo.count + 1
    ∧ ∃ tr2, (processVersion conv now false pid relDir name ext
          (processVersion conv now false pid relDir name ext st (v1, f1)) (v2, f2)).tracker
        = some tr2
      ∧ sourceRel f1 ∈ tr2.files ∧ sourceRel f2 ∈ tr2.files := by
  have hstep1 : processVersion conv now false pid relDir name ext st (v1, f1)
      = { st with
          commits := st.commits + 1,
          repo := { tree := stageFile conv relDir (name ++ "." ++ ext) f1.content st.repo.tree,
                    count := st.repo.count + 1 },
          tracker := (st.tracker.map (versionMarks (sourceRel f1) v1 ext pid now)) } := by
    unfold processVersion
    rw [hst]
    rw [if_neg (by simp [Tracker.is_file_committed, h1])]
    rw [if_neg (by simp)]
    rw [if_neg hpending]
  rw [hstep1, hst]
  have hmem2 : sourceRel f2 ∉ (versionMarks (sourceRel f1) v1 ext pid now tr).files := by
    intro hmem
    rw [versionMarks_files] at hmem
    rcases (mem_mark_file tr (sourceRel f1) (sourceRel f2)).mp hmem with h | h
    · exact h2 h
    · exact hne h
  have hstage2 : stageFile conv relDir (name ++ "." ++ ext) f2.content
      (stageFile conv relDir (name ++ "." ++ ext) f1.content st.repo.tree)
      = stageFile conv relDir (name ++ "." ++ ext) f1.content st.repo.tree := by
    rw [hcontent]
    exact stageFile_idem conv relDir (name ++ "." ++ ext) f1.content st.repo.tree
  have hstep2 : processVersion conv now false pid relDir name ext
      { st with
        commits := st.commits + 1,
        repo := { tree := stageFile conv relDir (name ++ "." ++ ext) f1.content st.repo.tree,
                  count := st.repo.count + 1 },
        tracker := ((some tr).map (versionMarks (sourceRel f1) v1 ext pid now)) } (v2, f2)
      = { st with
          commits := st.commits + 1,
          repo := { tree := stageFile conv relDir (name ++ "." ++ ext) f1.content st.repo.tree,
                    count := st.repo.count + 1 },
          tracker := some ((versionMarks (sourceRel f1) v1 ext pid now tr).mark_file_committed
            (sourceRel f2)) } := by
    unfold processVersion
    rw [if_neg (by simp [Tracker.is_file_committed, hmem2])]
    rw [if_neg (by simp)]
    rw [if_pos hstage2]
    rfl
  rw [hstep2]
  refine ⟨rfl, rfl, ⟨(versionMarks (sourceRel f1) v1 ext pid now tr).mark_file_committed
    (sourceRel f2), rfl, ?_, ?_⟩⟩
  · apply (mem_mark_file _ _ _).mpr
    apply Or.inl
    rw [versionMarks_files]
    exact (mem_mark_file tr _ _).mpr (Or.inr rfl)
  · exact (mem_mark_file _ _ _).mpr (Or.inr rfl)

/-- C10 (implicit): Skipped-identical versions never get the page-version
flag.  When a versioned unit is not ledger-skipped, the run is not dry, and
the staged copy yields no pending changes, the engine records only the
committed-file ledger entry for that source path: the tracker becomes
exactly mark_file_committed of the previous tracker (pageVersions and
attachments untouched, commits and repository unchanged), and
mark_file_committed never changes pageVersions, so the committed flag of
every ExportedPageVersion record stays as it was (false stays false). -/
theorem c10_identical_skip_no_version_mark (conv : Nat → Option Nat) (now : Nat)
    (pid : Option String) (relDir name ext : String) (st : RState) (tr : Tracker)
    (v : String) (f : SrcFile)
    (hst : st.tracker = some tr)
    (hnotc : sourceRel f ∉ tr.files)
    (hnochange : stageFile conv relDir (name ++ "." ++ ext) f.content st.repo.tree
      = st.repo.tree) :
    processVersion conv now false pid relDir name ext st (v, f)
      = { st with tracker := some (tr.mark_file_committed (sourceRel f)) }
    ∧ ∀ (p : String), (tr.mark_file_committed p).pageVersions = tr.pageVersions := by
  constructor
  · unfold processVersion
    rw [hst]
    rw [if_neg (by simp [Tracker.is_file_committed, hnotc])]
    rw [if_neg (by simp)]
    rw [if_pos hnochange]
    rfl
  · exact fun p => mark_file_pageVersions tr p

/-! ### Ledger-operation characterizations -/

/-- The match condition of the attachment scan, as a proposition. -/
def attMatchP (pid fname : String) (r : AttRec) : Prop :=
  r.page_id = pid ∧ r.committed_to_git = false ∧ sanitize (r.attachment_title.getD "") = fname

theorem attMatch_iff (pid fname : String) (r : AttRec) :
    attMatch pid fname r = true ↔ attMatchP pid fname r := by
  simp [attMatch, attMatchP, Bool.and_eq_true, and_assoc]

theorem markAttList_no_match (pid fname : String) (now : Nat) :
    ∀ (l : List AttRec), (∀ r ∈ l, ¬ attMatchP pid fname r) →
      markAttList pid fname now l = l := by
  intro l
  induction l with
  | nil => intro _; rfl
  | cons r rs ih =>
    intro h
    unfold markAttList
    rw [if_neg (by
      intro hm
      exact h r (by simp) ((attMatch_iff pid fname r).mp hm))]
    rw [ih (fun r' hr' => h r' (by simp [hr']))]

theorem markAttList_first (pid fname : String) (now : Nat) :
    ∀ (l1 : List AttRec) (r : AttRec) (l2 : List AttRec),
      (∀ r' ∈ l1, ¬ attMatchP pid fname r') → attMatchP pid fname r →
      markAttList pid fname now (l1 ++ r :: l2)
        = l1 ++ { r with committed_to_git := true, committed_at := some now } :: l2 := by
  intro l1
  induction l1 with
  | nil =>
    intro r l2 _ hr
    simp only [List.nil_append]
    unfold markAttList
    rw [if_pos ((attMatch_iff pid fname r).mpr hr)]
  | cons r0 l1 ih =>
    intro r l2 hnone hr
    show markAttList pid fname now (r0 :: (l1 ++ r :: l2)) = _
    unfold markAttList
    rw [if_neg (by
      intro hm
      exact hnone r0 (by simp) ((attMatch_iff pid fname r0).mp hm))]
    rw [ih r l2 (fun r' hr' => hnone r' (by simp [hr'])) hr]
    rfl

/-- The triple-match condition of the page-version scan, as a proposition. -/
def pvMatchP (pid : String) (n : Nat) (fmt : String) (r : PVRec) : Prop :=
  r.page_id = pid ∧ r.version_number = n ∧ r.export_format = fmt

theorem markVerList_no_match (pid : String) (n : Nat) (fmt : String) (now : Nat) :
    ∀ (l : List PVRec), (∀ r ∈ l, ¬ pvMatchP pid n fmt r) →
      markVerList pid n fmt now l = l := by
  intro l
  induction l with
  | nil => intro _; rfl
  | cons r rs ih =>
    intro h
    unfold markVerList
    rw [if_neg (show ¬(r.page_id = pid ∧ r.version_number = n ∧ r.export_format = fmt) from
      h r (by simp))]
    rw [ih (fun r' hr' => h r' (by simp [hr']))]

theorem markVerList_first_committed (pid : String) (n : Nat) (fmt : String) (now : Nat) :
    ∀ (l1 : List PVRec) (r : PVRec) (l2 : List PVRec),
      (∀ r' ∈ l1, ¬ pvMatchP pid n fmt r') → pvMatchP pid n fmt r →
      r.committed_to_git = true →
      markVerList pid n fmt now (l1 ++ r :: l2) = l1 ++ r :: l2 := by
  intro l1
  induction l1 with
  | nil =>
    intro r l2 _ hr hc
    simp only [List.nil_append]
    unfold markVerList
    rw [if_pos (show r.page_id = pid ∧ r.version_number = n ∧ r.export_format = fmt from hr),
      if_pos hc]
  | cons r0 l1 ih =>
    intro r l2 hnone hr hc
    show markVerList pid n fmt now (r0 :: (l1 ++ r :: l2)) = _
    unfold markVerList
    rw [if_neg (show ¬(r0.page_id = pid ∧ r0.version_number = n ∧ r0.export_format = fmt) from
      hnone r0 (by simp))]
    rw [ih r l2 (fun r' hr' => hnone r' (by simp [hr'])) hr hc]
    rfl

theorem markVerList_first_uncommitted (pid : String) (n : Nat) (fmt : String) (now : Nat) :
    ∀ (l1 : List PVRec) (r : PVRec) (l2 : List PVRec),
      (∀ r' ∈ l1, ¬ pvMatchP pid n fmt r') → pvMatchP pid n fmt r →
      r.committed_to_git = false →
      markVerList pid n fmt now (l1 ++ r :: l2)
        = l1 ++ { r with committed_to_git := true, committed_at := some now } :: l2 := by
  intro l1
  induction l1 with
  | nil =>
    intro r l2 _ hr hc
    simp only [List.nil_append]
    unfold markVerList
    rw [if_pos (show r.page_id = pid ∧ r.version_number = n ∧ r.export_format = fmt from hr)]
    rw [if_neg (by rw [hc]; exact Bool.false_ne_true)]
  | cons r0 l1 ih =>
    intro r l2 hnone hr hc
    show markVerList pid n fmt now (r0 :: (l1 ++ r :: l2)) = _
    unfold markVerList
    rw [if_neg (show ¬(r0.page_id = pid ∧ r0.version_number = n ∧ r0.export_format = fmt) from
      hnone r0 (by simp))]
    rw [ih r l2 (fun r' hr' => hnone r' (by simp [hr'])) hr hc]
    rfl

theorem markVerList_cons (pid : String) (n : Nat) (fmt : String) (now : Nat) (r : PVRec)
    (rs : List PVRec) :
    markVerList pid n fmt now (r :: rs)
      = if r.page_id = pid ∧ r.version_number = n ∧ r.export_format = fmt then
          (if r.committed_to_git then r :: rs
           else { r with committed_to_git := true, committed_at := some now } :: rs)
        else r :: markVerList pid n fmt now rs := rfl

theorem markVerList_idem (pid : String) (n : Nat) (fmt : String) (now now2 : Nat) :
    ∀ (l : List PVRec),
      markVerList pid n fmt now2 (markVerList pid n fmt now l) = markVerList pid n fmt now l := by
  intro l
  induction l with
  | nil => rfl
  | cons r rs ih =>
    rw [markVerList_cons]
    by_cases hm : r.page_id = pid ∧ r.version_number = n ∧ r.export_format = fmt
    · rw [if_pos hm]
      by_cases hc : r.committed_to_git
      · rw [if_pos hc, markVerList_cons, if_pos hm, if_pos hc]
      · rw [if_neg hc]
        rw [markVerList_cons]
        rw [if_pos (show ({ r with committed_to_git := true, committed_at := some now } : PVRec).page_id = pid ∧ ({ r with committed_to_git := true, committed_at := some now } : PVRec).version_number = n ∧ ({ r with committed_to_git := true, committed_at := some now } : PVRec).export_format = fmt from hm)]
        rw [if_pos (show ({ r with committed_to_git := true, committed_at := some now } : PVRec).committed_to_git = true from rfl)]
    · rw [if_neg hm, markVerList_cons, if_neg hm, ih]

/-- C7: Attachment matching by sanitized filename.
mark_attachment_committed_by_filename considers only records whose page id
matches and whose committed flag is false, comparing the sanitized stored
title (keep exactly the alphanumeric characters and dot, underscore, hyphen,
space, in original order) with the on-disk filename: when no record
qualifies the tracker is returned unchanged, and otherwise exactly the first
qualifying record has its flag and timestamp set while everything before and
after it is untouched (at most one record updated per call); and the stored
title Spec: Draft #1.docx sanitizes to Spec Draft 1.docx, so that filename
matches it. -/
theorem c7_attachment_sanitized_matching :
    (∀ (tr : Tracker) (pid fname : String) (now : Nat),
      (∀ r ∈ tr.attachments, ¬ attMatchP pid fname r) →
      tr.mark_attachment_committed_by_filename pid fname now = tr)
    ∧ (∀ (tr : Tracker) (pid fname : String) (now : Nat) (l1 : List AttRec) (r : AttRec)
        (l2 : List AttRec),
        tr.attachments = l1 ++ r :: l2 →
        (∀ r' ∈ l1, ¬ attMatchP pid fname r') → attMatchP pid fname r →
        (tr.mark_attachment_committed_by_filename pid fname now).attachments
          = l1 ++ { r with committed_to_git := true, committed_at := some now } :: l2)
    ∧ sanitize ("Spec: Draft #1.docx") = "Spec Draft 1.docx" := by
  refine ⟨?_, ?_, by decide⟩
  · intro tr pid fname now h
    unfold Tracker.mark_attachment_committed_by_filename
    rw [markAttList_no_match pid fname now tr.attachments h]
  · intro tr pid fname now l1 r l2 hsplit hnone hr
    unfold Tracker.mark_attachment_committed_by_filename
    show markAttList pid fname now tr.attachments = _
    rw [hsplit]
    exact markAttList_first pid fname now l1 r l2 hnone hr

/-- C8: Ledger no-op semantics of mark_version_committed.  The call is a
silent no-op when no record matches the (page id, version number, format)
triple or when the first matching record already has its committed flag set;
otherwise it sets the flag and the committed timestamp on that record.
Consequently a repeated call is a no-op, so the flag transitions from false
to true at most once. -/
theorem c8_mark_version_committed_noop :
    (∀ (tr : Tracker) (pid : String) (n : Nat) (fmt : String) (now : Nat),
      (∀ r ∈ tr.pageVersions, ¬ pvMatchP pid n fmt r) →
      tr.mark_version_committed pid n fmt now = tr)
    ∧ (∀ (tr : Tracker) (pid : String) (n : Nat) (fmt : String) (now : Nat)
        (l1 : List PVRec) (r : PVRec) (l2 : List PVRec),
        tr.pageVersions = l1 ++ r :: l2 →
        (∀ r' ∈ l1, ¬ pvMatchP pid n fmt r') → pvMatchP pid n fmt r →
        r.committed_to_git = true →
        tr.mark_version_committed pid n fmt now = tr)
    ∧ (∀ (tr : Tracker) (pid : String) (n : Nat) (fmt : String) (now : Nat)
        (l1 : List PVRec) (r : PVRec) (l2 : List PVRec),
        tr.pageVersions = l1 ++ r :: l2 →
        (∀ r' ∈ l1, ¬ pvMatchP pid n fmt r') → pvMatchP pid n fmt r →
        r.committed_to_git = false →
        (tr.mark_version_committed pid n fmt now).pageVersions
          = l1 ++ { r with committed_to_git := true, committed_at := some now } :: l2)
    ∧ (∀ (tr : Tracker) (pid : String) (n : Nat) (fmt : String) (now now2 : Nat),
        (tr.mark_version_committed pid n fmt now).mark_version_committed pid n fmt now2
          = tr.mark_version_committed pid n fmt now) := by
  refine ⟨?_, ?_, ?_, ?_⟩
  · intro tr pid n fmt now h
    unfold Tracker.mark_version_committed
    rw [markVerList_no_match pid n fmt now tr.pageVersions h]
  · intro tr pid n fmt now l1 r l2 hsplit hnone hr hc
    unfold Tracker.mark_version_committed
    have : markVerList pid n fmt now tr.pageVersions = tr.pageVersions := by
      rw [hsplit]
      exact markVerList_first_committed pid n fmt now l1 r l2 hnone hr hc
    rw [this]
  · intro tr pid n fmt now l1 r l2 hsplit hnone hr hc
    unfold Tracker.mark_version_committed
    show markVerList pid n fmt now tr.pageVersions = _
    rw [hsplit]
    exact markVerList_first_uncommitted pid n fmt now l1 r l2 hnone hr hc
  · intro tr pid n fmt now now2
    unfold Tracker.mark_version_committed
    show ({ tr with pageVersions := markVerList pid n fmt now2 (markVerList pid n fmt now tr.pageVersions) } : Tracker) = _
    rw [markVerList_idem]

/-! ### Version-string decoding lemmas -/

theorem splitOnChar_cons (sep c : Char) (l : List Char) :
    splitOnChar sep (c :: l)
      = if c = sep then [] :: splitOnChar sep l
        else match splitOnChar sep l with
          | [] => [[c]]
          | g :: gs => (c :: g) :: gs := rfl

theorem splitOnChar_no_sep (sep : Char) : ∀ (l : List Char), (∀ c ∈ l, c ≠ sep) →
    splitOnChar sep l = [l] := by
  intro l
  induction l with
  | nil => intro _; rfl
  | cons c t ih =>
    intro h
    rw [splitOnChar_cons, if_neg (h c (by simp)), ih (fun x hx => h x (by simp [hx]))]

theorem splitOnChar_append (sep : Char) : ∀ (l r : List Char), (∀ c ∈ l, c ≠ sep) →
    splitOnChar sep (l ++ sep :: r) = l :: splitOnChar sep r := by
  intro l
  induction l with
  | nil =>
    intro r _
    rw [List.nil_append, splitOnChar_cons, if_pos rfl]
  | cons c t ih =>
    intro r h
    rw [List.cons_append, splitOnChar_cons, if_neg (h c (by simp)),
      ih r (fun x hx => h x (by simp [hx]))]

theorem digit_ne_dot {c : Char} (h : c.isDigit = true) : c ≠ '.' := by
  intro hc
  subst hc
  exact absurd h (by decide)

theorem extract_conf_two_digit_segments (d1 d2 : List Char) (h1 : d1 ≠ [])
    (h1d : ∀ c ∈ d1, c.isDigit = true) (h2d : ∀ c ∈ d2, c.isDigit = true) :
    _extract_confluence_version (String.mk (d1 ++ '.' :: d2)) = some (natOfDigits d1)
      ↔ d2 = ['0'] := by
  have hsplit : splitOnChar '.' (String.mk (d1 ++ '.' :: d2)).toList = [d1, d2] := by
    show splitOnChar '.' (d1 ++ '.' :: d2) = [d1, d2]
    rw [splitOnChar_append '.' d1 d2 (fun c hc => digit_ne_dot (h1d c hc)),
      splitOnChar_no_sep '.' d2 (fun c hc => digit_ne_dot (h2d c hc))]
  unfold _extract_confluence_version
  rw [hsplit]
  show (if d2 = ['0'] ∧ d1 ≠ [] ∧ d1.all Char.isDigit = true then some (natOfDigits d1)
    else none) = some (natOfDigits d1) ↔ d2 = ['0']
  constructor
  · intro h
    by_cases hcond : d2 = ['0'] ∧ d1 ≠ [] ∧ d1.all Char.isDigit = true
    · exact hcond.1
    · rw [if_neg hcond] at h
      exact absurd h (by simp)
  · intro h
    rw [if_pos ⟨h, h1, List.all_eq_true.mpr h1d⟩]

theorem extract_conf_needs_two_segments (v : String)
    (hlen : (splitOnChar '.' v.toList).length ≠ 2) :
    _extract_confluence_version v = none := by
  unfold _extract_confluence_version
  cases h : splitOnChar '.' v.toList with
  | nil => rfl
  | cons p0 rest =>
    cases rest with
    | nil => rfl
    | cons p1 rest2 =>
      cases rest2 with
      | nil => exact absurd (by rw [h]; rfl) hlen
      | cons _ _ => rfl

theorem versionMarks_pageVersions (source_rel version_str ext : String)
    (page_id : Option String) (now : Nat) (tr : Tracker) :
    (versionMarks source_rel version_str ext page_id now tr).pageVersions
      = match page_id, _extract_confluence_version version_str with
        | some pid, some n =>
          markVerList pid n (if ext = "md" then "markdown" else ext) now tr.pageVersions
        | _, _ => tr.pageVersions := by
  unfold versionMarks
  cases page_id with
  | none => rw [mark_file_pageVersions]
  | some pid =>
    cases _extract_confluence_version version_str with
    | none => rw [mark_file_pageVersions]
    | some n =>
      show ((tr.mark_file_committed source_rel).mark_version_committed pid n
        (if ext = "md" then "markdown" else ext) now).pageVersions = _
      unfold Tracker.mark_version_committed
      rw [mark_file_pageVersions]

/-- C9 (amended): Page-version decode and format mapping.  After a versioned
commit is created (unit not ledger-skipped, not a dry run, staged changes
exist), the tracker receives exactly the versionMarks update, whose
pageVersions component is changed through mark_version_committed if and only
if a page id was extracted from the containing directory and the version
string decodes; a version string of two integer segments decodes (to the
numeric value of its first segment) exactly when its second segment is the
literal string 0 (so 3.0 decodes to 3 but 3.00 does not decode), any
segment count other than two never decodes, and the format passed is
markdown for the extension md and the extension itself otherwise. -/
theorem c9_page_version_decode (conv : Nat → Option Nat) (now : Nat)
    (pid : Option String) (relDir name ext : String) (st : RState) (tr : Tracker)
    (v : String) (f : SrcFile)
    (hst : st.tracker = some tr)
    (hnotc : sourceRel f ∉ tr.files)
    (hpending : stageFile conv relDir (name ++ "." ++ ext) f.content st.repo.tree
      ≠ st.repo.tree) :
    ((processVersion conv now false pid relDir name ext st (v, f)).tracker
        = some (versionMarks (sourceRel f) v ext pid now tr)
      ∧ (versionMarks (sourceRel f) v ext pid now tr).pageVersions
        = match pid, _extract_confluence_version v with
          | some p, some n =>
            markVerList p n (if ext = "md" then "markdown" else ext) now tr.pageVersions
          | _, _ => tr.pageVersions)
    ∧ (∀ (d1 d2 : List Char), d1 ≠ [] → (∀ c ∈ d1, c.isDigit = true) →
        (∀ c ∈ d2, c.isDigit = true) →
        (_extract_confluence_version (String.mk (d1 ++ '.' :: d2)) = some (natOfDigits d1)
          ↔ d2 = ['0']))
    ∧ (∀ (w : String), (splitOnChar '.' w.toList).length ≠ 2 →
        _extract_confluence_version w = none) := by
  refine ⟨⟨?_, versionMarks_pageVersions (sourceRel f) v ext pid now tr⟩,
    fun d1 d2 h1 h1d h2d => extract_conf_two_digit_segments d1 d2 h1 h1d h2d,
    fun w hw => extract_conf_needs_two_segments w hw⟩
  unfold processVersion
  rw [hst]
  rw [if_neg (by simp [Tracker.is_file_committed, hnotc])]
  rw [if_neg (by simp)]
  rw [if_neg hpending]
  rfl

/-- C9, counterexample to the claim as stated: the version string 3.00
consists of exactly two integer segments whose second segment is numerically
zero (parse_version yields [3, 0]), a page id is parseable from the source
directory name, a commit is created, and a matching uncommitted
ExportedPageVersion row for page 123, version 3, format markdown exists in
the ledger — yet mark_version_committed is not called: the row's committed
flag is still false after the run, because the code requires the second
segment to be the literal string 0. -/
theorem c9_counterexample :
    parse_version ("3.00") = [3, 0]
    ∧ _extract_page_id ("Page_123") = some ("123")
    ∧ commit_all (fun _ => none) ("Page_123") 0 [⟨".", "Doc 3.00.md", 5⟩] ⟨[], 0⟩
        (some ⟨[], [⟨"123", 3, "markdown", false, none⟩], []⟩) false
      = ⟨1, 0, ⟨[("Doc.md", 5)], 1⟩,
          some ⟨["Doc 3.00.md"], [⟨"123", 3, "markdown", false, none⟩], []⟩⟩ := by
  refine ⟨by decide, by decide, by decide⟩

theorem getLastQ_cons_ne_none {α : Type} : ∀ (t : List α) (x : α), (x :: t).getLast? ≠ none := by
  intro t
  induction t with
  | nil => intro x h; simp at h
  | cons y t ih => intro x h; rw [List.getLast?_cons_cons] at h; exact ih y h

/-- C3 (amended): Parser recognition extent.  For every filename of the form
base, whitespace, version, dot, extension — where the base is nonempty,
newline-free and does not end in a whitespace character, the whitespace run
is nonempty, the version consists of TWO or more dot-separated nonempty
integer segments, and the extension is a nonempty run of word characters —
the filename parser classifies the file as versioned and returns exactly
(base, version string, extension).  A single-segment version is not
recognized: report 1.0.docx is versioned but report 1.docx is classified
plain, because VERSION_PATTERN requires at least two segments. -/
theorem c3_versioned_recognition (bs ws es d1 d2 : List Char) (rest : List (List Char))
    (hbs : bs ≠ []) (hnl : ∀ c ∈ bs, c ≠ '\n')
    (hlast : ∀ c ∈ bs.getLast?, isSpaceChar c = false)
    (hws : ws ≠ []) (hwsp : ∀ c ∈ ws, isSpaceChar c = true)
    (hd1 : d1 ≠ []) (hd1d : ∀ c ∈ d1, c.isDigit = true)
    (hd2 : d2 ≠ []) (hd2d : ∀ c ∈ d2, c.isDigit = true)
    (hrest : ∀ d ∈ rest, d ≠ [] ∧ ∀ c ∈ d, c.isDigit = true)
    (hes : es ≠ []) (hesw : ∀ c ∈ es, isWordChar c = true) :
    VERSION_PATTERN_match (String.mk (bs ++ ws ++ (d1 ++ flatTail (d2 :: rest)) ++ '.' :: es))
      = some (String.mk bs, String.mk (d1 ++ flatTail (d2 :: rest)), String.mk es)
    ∧ VERSION_PATTERN_match ("report 1.0.docx") = some ("report", "1.0", "docx")
    ∧ VERSION_PATTERN_match ("report 1.docx") = none := by
  refine ⟨VERSION_PATTERN_match_canonical bs ws d1 d2 rest es hbs hnl
    (fun c hc => hlast c (Option.mem_def.mpr hc)) hws hwsp hd1 hd1d hd2 hd2d hrest hes hesw,
    by decide, by decide⟩

/-- C3, counterexample to the claim as stated: the claim asserts that every
filename whose version part matches one or more dot-separated integer
segments is recognized, in particular report 1.docx; but the pattern in the
code requires two or more segments, so the parser classifies report 1.docx
as plain (no match). -/
theorem c3_counterexample : VERSION_PATTERN_match ("report 1.docx") = none := by decide

/-- C3 witness: the amended recognition theorem applied at the concrete
filename report 1.0.docx. -/
theorem c3_versioned_recognition_witness :
    (("report").toList ≠ [] ∧ (" ").toList ≠ [])
    ∧ (VERSION_PATTERN_match (String.mk (("report").toList ++ (" ").toList
          ++ (['1'] ++ flatTail [['0']]) ++ '.' :: ("docx").toList))
        = some (String.mk ("report").toList, String.mk (['1'] ++ flatTail [['0']]),
            String.mk ("docx").toList)
      ∧ VERSION_PATTERN_match ("report 1.0.docx") = some ("report", "1.0", "docx")
      ∧ VERSION_PATTERN_match ("report 1.docx") = none) :=
  ⟨⟨by decide, by decide⟩,
    c3_versioned_recognition ("report").toList (" ").toList ("docx").toList ['1'] ['0'] []
      (by decide) (by decide) (by decide) (by decide) (by decide) (by decide) (by decide)
      (by decide) (by decide) (by decide) (by decide) (by decide)⟩

/-- C4: Right-to-left greedy split.  For every versioned filename whose base
itself contains space-separated tokens (the base has the shape
token1 space token2 with arbitrary newline-free characters, token2 nonempty
and not ending in whitespace), the parser captures the whole base verbatim
and splits off only the trailing version and extension; concretely
a 1.5 2.0.md parses to base a 1.5, version 2.0, extension md, and a
non-Latin (Cyrillic) base name is returned unchanged. -/
theorem c4_greedy_base_split (b1 b2 ws es d1 d2 : List Char) (rest : List (List Char))
    (hnl1 : ∀ c ∈ b1, c ≠ '\n') (hb2 : b2 ≠ []) (hnl2 : ∀ c ∈ b2, c ≠ '\n')
    (hlast : ∀ c ∈ b2.getLast?, isSpaceChar c = false)
    (hws : ws ≠ []) (hwsp : ∀ c ∈ ws, isSpaceChar c = true)
    (hd1 : d1 ≠ []) (hd1d : ∀ c ∈ d1, c.isDigit = true)
    (hd2 : d2 ≠ []) (hd2d : ∀ c ∈ d2, c.isDigit = true)
    (hrest : ∀ d ∈ rest, d ≠ [] ∧ ∀ c ∈ d, c.isDigit = true)
    (hes : es ≠ []) (hesw : ∀ c ∈ es, isWordChar c = true) :
    VERSION_PATTERN_match (String.mk ((b1 ++ ' ' :: b2) ++ ws
        ++ (d1 ++ flatTail (d2 :: rest)) ++ '.' :: es))
      = some (String.mk (b1 ++ ' ' :: b2), String.mk (d1 ++ flatTail (d2 :: rest)),
          String.mk es)
    ∧ VERSION_PATTERN_match ("a 1.5 2.0.md") = some ("a 1.5", "2.0", "md")
    ∧ VERSION_PATTERN_match ("ФТ Подсистема обработки запросов к ТА 0.1.0.docx")
        = some ("ФТ Подсистема обработки запросов к ТА", "0.1.0", "docx") := by
  obtain ⟨x, t, rfl⟩ : ∃ x t, b2 = x :: t := by
    cases b2 with
    | nil => exact absurd rfl hb2
    | cons a b => exact ⟨a, b, rfl⟩
  refine ⟨?_, by decide, by decide⟩
  apply VERSION_PATTERN_match_canonical (b1 ++ ' ' :: x :: t) ws d1 d2 rest es
    (by simp) ?_ ?_ hws hwsp hd1 hd1d hd2 hd2d hrest hes hesw
  · intro c hc
    rcases List.mem_append.mp hc with h | h
    · exact hnl1 c h
    · rcases List.mem_cons.mp h with rfl | h'
      · decide
      · exact hnl2 c h'
  · intro c hc
    have h1 : (b1 ++ ' ' :: x :: t).getLast? = (x :: t).getLast? := by
      rw [List.getLast?_append, List.getLast?_cons_cons]
      cases hgl : (x :: t).getLast? with
      | none => exact absurd hgl (getLastQ_cons_ne_none t x)
      | some y => rfl
    rw [h1] at hc
    exact hlast c (Option.mem_def.mpr hc)

/-! ### Concrete fixtures for the witnesses -/

/-- A converter collaborator that never produces markdown. -/
def exConv : Nat → Option Nat := fun _ => none

/-- An empty target repository. -/
def exRepo : Repo := ⟨[], 0⟩

/-- An empty tracker. -/
def exTr0 : Tracker := ⟨[], [], []⟩

/-- Initial replay state over the empty repository with the empty tracker. -/
def exSt0 : RState := ⟨0, 0, exRepo, some exTr0⟩

/-- Version 1.0 of document a, content 7. -/
def exF1 : SrcFile := ⟨".", "a 1.0.md", 7⟩

/-- Version 2.0 of document a, byte-identical to version 1.0. -/
def exF2 : SrcFile := ⟨".", "a 2.0.md", 7⟩

/-- A tracker holding one uncommitted exported page version. -/
def exTrPV : Tracker := ⟨[], [⟨"9", 3, "markdown", false, none⟩], []⟩

/-- Initial replay state with the page-version tracker. -/
def exStPV : RState := ⟨0, 0, exRepo, some exTrPV⟩

instance (pid fname : String) (r : AttRec) : Decidable (attMatchP pid fname r) := by
  unfold attMatchP
  infer_instance

instance (pid : String) (n : Nat) (fmt : String) (r : PVRec) :
    Decidable (pvMatchP pid n fmt r) := by
  unfold pvMatchP
  infer_instance

/-- C2 witness: a concrete discovered group is sorted ascending. -/
theorem c2_version_ordering_witness :
    (((".", "a", "md"), [(("1.0"), exF1), (("2.0"), exF2)])
        ∈ (find_all_files [exF1, exF2]).1)
    ∧ List.Sorted vle [(("1.0"), exF1), (("2.0"), exF2)] :=
  ⟨by decide, c2_version_ordering.2.2 [exF1, exF2] ((".", "a", "md"))
    [(("1.0"), exF1), (("2.0"), exF2)] (by decide)⟩

/-- C4 witness: the greedy-split theorem applied at the filename
a 1.5 2.0.md, whose base contains two space-separated tokens. -/
theorem c4_greedy_base_split_witness :
    ((("1.5").toList ≠ [] ∧ ∀ c ∈ (("1.5").toList).getLast?, isSpaceChar c = false))
    ∧ VERSION_PATTERN_match (String.mk ((("a").toList ++ ' ' :: ("1.5").toList) ++ [' ']
        ++ (['2'] ++ flatTail [['0']]) ++ '.' :: ("md").toList))
      = some (String.mk (("a").toList ++ ' ' :: ("1.5").toList),
          String.mk (['2'] ++ flatTail [['0']]), String.mk ("md").toList) :=
  ⟨⟨by decide, by decide⟩,
    (c4_greedy_base_split ("a").toList ("1.5").toList [' '] ("md").toList ['2'] ['0'] []
      (by decide) (by decide) (by decide) (by decide) (by decide) (by decide) (by decide)
      (by decide) (by decide) (by decide) (by decide) (by decide) (by decide)).1⟩

/-- C5 witness: two byte-identical consecutive versions over the empty
repository produce exactly one commit. -/
theorem c5_identical_pair_single_commit_witness :
    (sourceRel exF1 ∉ exTr0.files
      ∧ stageFile exConv (".") ("a" ++ "." ++ "md") exF1.content exSt0.repo.tree
          ≠ exSt0.repo.tree)
    ∧ (processVersion exConv 0 false none (".") ("a") ("md")
        (processVersion exConv 0 false none (".") ("a") ("md") exSt0 (("1.0"), exF1))
        (("2.0"), exF2)).commits = exSt0.commits + 1 :=
  ⟨⟨by decide, by decide⟩,
    (c5_identical_pair_single_commit exConv 0 none (".") ("a") ("md") exSt0 exTr0
      ("1.0") ("2.0") exF1 exF2 rfl (by decide) (by decide) (by decide) rfl (by decide)).1⟩

/-- C7 witness: the first-match update applied to a one-record attachment
table whose stored title sanitizes to the on-disk filename. -/
theorem c7_attachment_sanitized_matching_witness :
    attMatchP ("p") ("Spec Draft 1.docx") ⟨"p", some ("Spec: Draft #1.docx"), false, none⟩
    ∧ ((⟨[], [], [⟨"p", some ("Spec: Draft #1.docx"), false, none⟩]⟩ :
          Tracker).mark_attachment_committed_by_filename ("p") ("Spec Draft 1.docx") 5).attachments
      = [] ++ ⟨"p", some ("Spec: Draft #1.docx"), true, some 5⟩ :: [] :=
  ⟨by decide,
    c7_attachment_sanitized_matching.2.1
      ⟨[], [], [⟨"p", some ("Spec: Draft #1.docx"), false, none⟩]⟩
      ("p") ("Spec Draft 1.docx") 5 [] ⟨"p", some ("Spec: Draft #1.docx"), false, none⟩ []
      rfl (by simp) (by decide)⟩

/-- C8 witness: the flag-setting branch applied to a one-record
page-version table. -/
theorem c8_mark_version_committed_noop_witness :
    pvMatchP ("9") 3 ("markdown") ⟨"9", 3, "markdown", false, none⟩
    ∧ ((⟨[], [⟨"9", 3, "markdown", false, none⟩], []⟩ :
          Tracker).mark_version_committed ("9") 3 ("markdown") 5).pageVersions
      = [] ++ ⟨"9", 3, "markdown", true, some 5⟩ :: [] :=
  ⟨by decide,
    c8_mark_version_committed_noop.2.2.1
      ⟨[], [⟨"9", 3, "markdown", false, none⟩], []⟩ ("9") 3 ("markdown") 5
      [] ⟨"9", 3, "markdown", false, none⟩ []
      rfl (by simp) (by decide) (by decide)⟩

/-- C9 witness: the commit branch of a versioned unit hands the tracker to
versionMarks, at the concrete version string 3.0. -/
theorem c9_page_version_decode_witness :
    (sourceRel (⟨".", "p 3.0.md", 4⟩ : SrcFile) ∉ exTrPV.files
      ∧ stageFile exConv (".") ("p" ++ "." ++ "md") 4 exStPV.repo.tree ≠ exStPV.repo.tree)
    ∧ (processVersion exConv 0 false (some ("9")) (".") ("p") ("md") exStPV
        (("3.0"), ⟨".", "p 3.0.md", 4⟩)).tracker
      = some (versionMarks (sourceRel (⟨".", "p 3.0.md", 4⟩ : SrcFile)) ("3.0") ("md")
          (some ("9")) 0 exTrPV) :=
  ⟨⟨by decide, by decide⟩,
    (c9_page_version_decode exConv 0 (some ("9")) (".") ("p") ("md") exStPV exTrPV
      ("3.0") ⟨".", "p 3.0.md", 4⟩ rfl (by decide) (by decide)).1.1⟩

/-- C10 witness: a versioned unit staged over identical repository content
only marks the source file, leaving the page-version rows untouched. -/
theorem c10_identical_skip_no_version_mark_witness :
    (sourceRel exF1 ∉ exTr0.files
      ∧ stageFile exConv (".") ("a" ++ "." ++ "md") exF1.content
          (⟨0, 0, ⟨[("a.md", 7)], 1⟩, some exTr0⟩ : RState).repo.tree
        = (⟨0, 0, ⟨[("a.md", 7)], 1⟩, some exTr0⟩ : RState).repo.tree)
    ∧ processVersion exConv 0 false none (".") ("a") ("md")
        ⟨0, 0, ⟨[("a.md", 7)], 1⟩, some exTr0⟩ (("1.0"), exF1)
      = { (⟨0, 0, ⟨[("a.md", 7)], 1⟩, some exTr0⟩ : RState) with
          tracker := some (exTr0.mark_file_committed (sourceRel exF1)) } :=
  ⟨⟨by decide, by decide⟩,
    (c10_identical_skip_no_version_mark exConv 0 none (".") ("a") ("md")
      ⟨0, 0, ⟨[("a.md", 7)], 1⟩, some exTr0⟩ exTr0 ("1.0") exF1
      rfl (by decide) (by decide)).1⟩
